import Mathlib

/-!
# Verification of the molecbio rosetta orchestration / ledger subsystem

A shallow embedding of the decoy-ledger (`rosetta/util.py`, class `ScoresDict`),
the pdb constraint filter (`rosetta/pdbFilter.py`, class `PdbFilter`) and the
worker-share arithmetic (`rosetta/baseClasses.py`, class `SeedInputPdbs`),
together with proofs about the embedded operations.

Python floats are embedded as exact rationals (`ℚ`); Python dicts are embedded
as association lists in insertion order; fallible Python code (statements that
can raise `KeyError`, `IndexError`, `FileNotFoundError`, ...) is embedded with
`Option`/`Except` results.
-/

set_option allowUnsafeReducibility true
set_option synthInstance.maxSize 512
set_option synthInstance.maxHeartbeats 800000
attribute [local semireducible] Rat.add Rat.mul Rat.sub Rat.div Rat.inv Rat.neg Rat.ofScientific

namespace Molecbio

/-! ## Association lists: the embedding of Python `dict` (insertion ordered) -/

/-- Python `d[k]` / `d.get(k)`: first (and, for dict states, only) binding of `k`. -/
def alookup {α : Type} : List (String × α) → String → Option α
  | [], _ => none
  | p :: ps, k => if p.1 = k then some p.2 else alookup ps k

/-- Python `del d[k]` / `d.pop(k)` key removal (value-free part). -/
def aerase {α : Type} : List (String × α) → String → List (String × α)
  | [], _ => []
  | p :: ps, k => if p.1 = k then aerase ps k else p :: aerase ps k

/-- Python `d[k] = v`: update in place if present, else append at the end. -/
def ainsert {α : Type} (l : List (String × α)) (k : String) (v : α) : List (String × α) :=
  if (alookup l k).isSome then l.map (fun p => if p.1 = k then (k, v) else p) else l ++ [(k, v)]

/-- The key list of a dict, in insertion order. -/
def akeys {α : Type} (l : List (String × α)) : List String := l.map Prod.fst

@[simp] theorem alookup_nil {α : Type} (k : String) : alookup ([] : List (String × α)) k = none := rfl

@[simp] theorem alookup_cons {α : Type} (p : String × α) (ps : List (String × α)) (k : String) :
    alookup (p :: ps) k = if p.1 = k then some p.2 else alookup ps k := rfl

@[simp] theorem aerase_nil {α : Type} (k : String) : aerase ([] : List (String × α)) k = [] := rfl

@[simp] theorem aerase_cons {α : Type} (p : String × α) (ps : List (String × α)) (k : String) :
    aerase (p :: ps) k = if p.1 = k then aerase ps k else p :: aerase ps k := rfl

/-! ## Worker share arithmetic (`baseClasses.py`, `SeedInputPdbs._generateSupplements`)

`numStruct` is a Python `int` (embedded as `ℤ`), `numCPUs` is converted with
`float(...)` (embedded as `ℚ`); `round` is Python 3 banker's rounding
(round half to even). -/

/-- Python 3 `round(q)` for a real-valued argument: nearest integer, ties to even. -/
def pythonRound (q : ℚ) : ℤ :=
  let f : ℤ := ⌊q⌋
  let r : ℚ := q - (f : ℚ)
  if r < 1/2 then f
  else if 1/2 < r then f + 1
  else if 2 ∣ f then f else f + 1

/-- The loop body of `_generateSupplements`: for each basename take
`round(numStruct / numCPUs)`, subtract it from `numStruct` and decrement `numCPUs`. -/
def generateSupplementCounts : Nat → ℤ → ℚ → List ℤ
  | 0, _, _ => []
  | n + 1, numStruct, numCPUs =>
    let num := pythonRound ((numStruct : ℚ) / numCPUs)
    num :: generateSupplementCounts n (numStruct - num) (numCPUs - 1)

/-- `_getOutputBasenames` produces `numCPUs` names when `numCPUs > 1`, else one name. -/
def outputBasenameCount (numCPUs : Nat) : Nat := if 1 < numCPUs then numCPUs else 1

/-- `_generateSupplements`: the per-worker `-nstruct` counts. -/
def generateSupplements (numStruct : ℤ) (numCPUs : Nat) : List ℤ :=
  generateSupplementCounts (outputBasenameCount numCPUs) numStruct (numCPUs : ℚ)

theorem pythonRound_intCast (s : ℤ) : pythonRound (s : ℚ) = s := by
  unfold pythonRound
  have hf : ⌊(s : ℚ)⌋ = s := Int.floor_intCast s
  rw [hf]
  norm_num

theorem generateSupplementCounts_sum :
    ∀ (n : Nat) (S : ℤ) (K : ℚ), K = (n : ℚ) → 1 ≤ n →
      (generateSupplementCounts n S K).sum = S := by
  intro n
  induction n with
  | zero => intro S K _ h; exact absurd h (by decide)
  | succ m ih =>
    intro S K hK _
    rcases Nat.eq_zero_or_pos m with hm | hm
    · subst hm
      simp only [generateSupplementCounts, List.sum_cons, List.sum_nil]
      have h1 : K = 1 := by rw [hK]; norm_num
      rw [h1]
      rw [div_one]
      rw [pythonRound_intCast]
      ring
    · simp only [generateSupplementCounts, List.sum_cons]
      have hK1 : K - 1 = (m : ℚ) := by rw [hK]; push_cast; ring
      rw [ih _ _ hK1 hm]
      ring

theorem generateSupplementCounts_length (n : Nat) (S : ℤ) (K : ℚ) :
    (generateSupplementCounts n S K).length = n := by
  induction n generalizing S K with
  | zero => rfl
  | succ m ih => simp [generateSupplementCounts, ih]

/-- C9: for every target count `S ≥ 0` and pool size `K ≥ 1`, the per-worker
counts produced by `_generateSupplements` form `K` shares whose sum is exactly
`S`, even when `S` is not divisible by `K`. -/
theorem generateSupplements_exact (S : ℤ) (K : Nat) (hK : 1 ≤ K) (_hS : 0 ≤ S) :
    (generateSupplements S K).length = K ∧ (generateSupplements S K).sum = S := by
  have hcount : outputBasenameCount K = K := by
    unfold outputBasenameCount
    rcases Nat.lt_or_ge 1 K with h | h
    · simp [h]
    · have hK1 : K = 1 := by omega
      subst hK1
      simp
  constructor
  · rw [generateSupplements, hcount, generateSupplementCounts_length]
  · rw [generateSupplements, hcount]
    exact generateSupplementCounts_sum K S (K : ℚ) rfl hK

/-- Witness for C9 at `S = 7`, `K = 3` (shares `[2, 2, 3]`). -/
theorem generateSupplements_exact_witness :
    (1 ≤ 3 ∧ (0:ℤ) ≤ 7) ∧
      ((generateSupplements 7 3).length = 3 ∧ (generateSupplements 7 3).sum = 7) :=
  ⟨⟨by decide, by decide⟩, generateSupplements_exact 7 3 (by decide) (by decide)⟩

/-! ## String helpers shared by the ledger and the renumbering algorithm -/

/-- Python `s.rpartition(c)[0]`: everything before the last occurrence of `c`
(the empty string when `c` does not occur). -/
def beforeLastChar (c : Char) (s : String) : String :=
  String.mk (((s.data.reverse.dropWhile (· != c)).drop 1).reverse)

/-- Python `s[:-k]`. -/
def dropLastN (k : Nat) (s : String) : String :=
  String.mk (s.data.take (s.data.length - k))

/-- The decimal digit character for `d < 10` (`'0'`–`'9'`). -/
def digitCharOf (d : Nat) : Char := Char.ofNat (48 + d)

/-- Big-endian decimal digits of `n` (empty for `0`); `fuel ≥ n + 1` always
suffices, and structural recursion on the fuel keeps the definition
kernel-reducible. -/
def natReprGo : Nat → Nat → List Char
  | 0, _ => []
  | _ + 1, 0 => []
  | fuel + 1, n + 1 => natReprGo fuel ((n + 1) / 10) ++ [digitCharOf ((n + 1) % 10)]

/-- Decimal representation of a natural number (`'0'` for zero). -/
def natRepr (n : Nat) : List Char := if n = 0 then ['0'] else natReprGo (n + 1) n

/-- Left-pad a digit list with `'0'` up to width `w`. -/
def padZeros (w : Nat) (l : List Char) : List Char := List.replicate (w - l.length) '0' ++ l

/-- Python `'%04d' % n` (equivalently `'%.4d'`): zero-padded decimal of width ≥ 4. -/
def pad4 (n : Nat) : String := String.mk (padZeros 4 (natRepr n))

/-- `'%s %s' % (line.rpartition(' ')[0], new)`: rewrite the trailing token of a
ledger line to a new filename (`ScoresDict.rename`). -/
def lineRewrite (line new : String) : String := beforeLastChar ' ' line ++ " " ++ new

theorem dropWhile_append_of_all {α : Type} (p : α → Bool) (l₁ l₂ : List α)
    (h : ∀ a ∈ l₁, p a = true) :
    List.dropWhile p (l₁ ++ l₂) = List.dropWhile p l₂ := by
  induction l₁ with
  | nil => simp
  | cons a l ih =>
    simp only [List.cons_append, List.dropWhile_cons]
    rw [h a (by simp)]
    exact ih (fun x hx => h x (by simp [hx]))

theorem beforeLastChar_append_sep (x m : String) (hm : ' ' ∉ m.data) :
    beforeLastChar ' ' (x ++ " " ++ m) = x := by
  unfold beforeLastChar
  have hdata : (x ++ " " ++ m).data = x.data ++ (' ' :: m.data) := by
    simp [String.data_append]
  rw [hdata]
  rw [List.reverse_append, List.reverse_cons, List.append_assoc, List.singleton_append]
  have hall : ∀ a ∈ m.data.reverse, (a != ' ') = true := by
    intro a ha
    have hmem : a ∈ m.data := List.mem_reverse.mp ha
    simp only [bne_iff_ne, ne_eq]
    intro hEq
    subst hEq
    exact hm hmem
  rw [dropWhile_append_of_all _ _ _ hall]
  simp only [List.dropWhile_cons]
  have hsp : ((' ' : Char) != ' ') = false := by decide
  rw [hsp]
  simp only [Bool.false_eq_true, if_false, List.drop_succ_cons, List.drop_zero,
    List.reverse_reverse]

theorem lineRewrite_lineRewrite (l m n : String) (hm : ' ' ∉ m.data) :
    lineRewrite (lineRewrite l m) n = lineRewrite l n := by
  unfold lineRewrite
  rw [beforeLastChar_append_sep _ _ hm]

theorem lineRewrite_self (p k : String) (hk : ' ' ∉ k.data) :
    lineRewrite (p ++ " " ++ k) k = p ++ " " ++ k := by
  unfold lineRewrite
  rw [beforeLastChar_append_sep _ _ hk]

/-! ## Lookup lemmas for the dict embedding -/

theorem alookup_append {α : Type} (l₁ l₂ : List (String × α)) (k : String) :
    alookup (l₁ ++ l₂) k =
      match alookup l₁ k with
      | some v => some v
      | none => alookup l₂ k := by
  induction l₁ with
  | nil => simp [alookup]
  | cons p ps ih =>
    by_cases h : p.1 = k <;> simp [alookup, h, ih]

theorem alookup_aerase_self {α : Type} (l : List (String × α)) (k : String) :
    alookup (aerase l k) k = none := by
  induction l with
  | nil => rfl
  | cons p ps ih =>
    by_cases h : p.1 = k <;> simp [aerase, alookup, h, ih]

theorem alookup_aerase_ne {α : Type} (l : List (String × α)) (k k' : String) (h : k' ≠ k) :
    alookup (aerase l k) k' = alookup l k' := by
  induction l with
  | nil => rfl
  | cons p ps ih =>
    simp only [aerase]
    by_cases hp : p.1 = k
    · rw [if_pos hp, ih]
      have hp' : ¬ p.1 = k' := by rw [hp]; exact fun hh => h hh.symm
      simp [alookup, hp']
    · rw [if_neg hp]
      by_cases hp' : p.1 = k' <;> simp [alookup, hp', ih]

theorem alookup_map_update_self {α : Type} (l : List (String × α)) (k : String) (v : α)
    (w : α) (hw : alookup l k = some w) :
    alookup (l.map fun p => if p.1 = k then (k, v) else p) k = some v := by
  induction l with
  | nil => simp [alookup] at hw
  | cons p ps ih =>
    by_cases hp : p.1 = k
    · simp [alookup, hp]
    · simp only [alookup, if_neg hp] at hw
      simp [alookup, hp, ih hw]

theorem alookup_map_update_ne {α : Type} (l : List (String × α)) (k k' : String) (v : α)
    (h : k' ≠ k) :
    alookup (l.map fun p => if p.1 = k then (k, v) else p) k' = alookup l k' := by
  induction l with
  | nil => rfl
  | cons p ps ih =>
    by_cases hp : p.1 = k
    · have hk' : ¬ (k = k') := fun hh => h hh.symm
      have hp' : ¬ (p.1 = k') := by rw [hp]; exact hk'
      simp [alookup, hp, hk', hp', ih]
    · by_cases hp' : p.1 = k' <;> simp [alookup, hp, hp', h, ih]

theorem alookup_ainsert_self {α : Type} (l : List (String × α)) (k : String) (v : α) :
    alookup (ainsert l k v) k = some v := by
  unfold ainsert
  cases hh : alookup l k with
  | none =>
    rw [if_neg (by simp [hh])]
    rw [alookup_append, hh]
    simp [alookup]
  | some w =>
    rw [if_pos (by simp [hh])]
    exact alookup_map_update_self l k v w hh

theorem alookup_ainsert_ne {α : Type} (l : List (String × α)) (k k' : String) (v : α)
    (h : k' ≠ k) :
    alookup (ainsert l k v) k' = alookup l k' := by
  unfold ainsert
  by_cases hs : (alookup l k).isSome = true
  · rw [if_pos hs]
    exact alookup_map_update_ne l k k' v h
  · rw [if_neg hs]
    rw [alookup_append]
    have hkk : ¬ k = k' := fun hh => h hh.symm
    cases hh : alookup l k' with
    | none => simp [alookup, hkk]
    | some w => simp

/-! ## The ledger: `ScoresDict` of `rosetta/util.py`

The in-memory state is the dict of per-decoy metric records (the dict subclass
itself), the dict of raw score-file lines (`self.lines`), the stored header
string, the metric-name list and the ranking metric.  `__rankingMetric` is `None`
at construction, is assigned the *list* `scoresHeader` during parsing, and is
replaced by a metric name in `__determineType`; the sum type `RankVal` captures
those three shapes. -/

/-- A parsed score value: `float(score)` when conversion succeeds, else the raw string. -/
inductive Value
  | num (q : ℚ)
  | raw (s : String)
  deriving DecidableEq

/-- One Metrics Record: metric name → value, in header order. -/
abbrev Record := List (String × Value)

/-- The possible shapes of `ScoresDict.__rankingMetric`. -/
inductive RankVal
  | unset
  | cols (l : List String)
  | metric (m : String)
  deriving DecidableEq

/-- The in-memory state of a `ScoresDict`. -/
structure ScoresDict where
  records : List (String × Record)
  lines : List (String × String)
  header : String
  metrics : List String
  rankingMetric : RankVal
  deriving DecidableEq

namespace ScoresDict

/-- `ScoresDict.remove`: delete both the record and the stored line if present. -/
def remove (s : ScoresDict) (name : String) : ScoresDict :=
  if (alookup s.records name).isSome then
    { s with records := aerase s.records name, lines := aerase s.lines name }
  else s

/-- `ScoresDict.rename(old, new)`: no-op if `old == new`, else pop the stored
line, rewrite its trailing token, and move the record.  `none` embeds the
`KeyError` raised when `old` is absent. -/
def rename (s : ScoresDict) (old new : String) : Option ScoresDict :=
  if old = new then some s else
    match alookup s.lines old, alookup s.records old with
    | some oldLine, some oldRec =>
        some { s with
          lines := ainsert (aerase s.lines old) new (lineRewrite oldLine new),
          records := ainsert (aerase s.records old) new oldRec }
    | _, _ => none

/-- `ScoresDict.swap(a, b)`: three renames through the temporary key `a+'.temp'`. -/
def swap (s : ScoresDict) (a b : String) : Option ScoresDict :=
  if a = b then some s else
    match s.rename a (a ++ ".temp") with
    | none => none
    | some s1 =>
      match s1.rename b a with
      | none => none
      | some s2 => s2.rename (a ++ ".temp") b

/-- The `'%s_deleted_%04d.pdb'` name template of `ScoresDict.markDeleted`. -/
def deletedNameOf (basename : String) (i : Nat) : String :=
  basename ++ "_deleted_" ++ pad4 i ++ ".pdb"

/-- The `while nameTemplate % (basename, i) in self: i += 1` search: the least
index `i ≥ 1` whose deleted-name is not a key.  The dict is finite, so searching
`records.length + 1` candidates always suffices. -/
def firstFreeDeletedIndex (s : ScoresDict) (b : String) : Option Nat :=
  ((List.range (s.records.length + 1)).map (· + 1)).find?
    (fun i => (alookup s.records (deletedNameOf b i)).isNone)

/-- `if not basename: basename = name[:-9]` — a falsy (absent or empty)
basename defaults to `name[:-9]`. -/
def markDeletedBase (name : String) : Option String → String
  | some bs => if bs = "" then dropLastN 9 name else bs
  | none => dropLastN 9 name

/-- `ScoresDict.markDeleted(name, basename=None)`: rename `name` to the first
free `<base>_deleted_%04d.pdb` key. -/
def markDeleted (s : ScoresDict) (name : String) (basename : Option String) : Option ScoresDict :=
  match firstFreeDeletedIndex s (markDeletedBase name basename) with
  | none => none
  | some i => s.rename name (deletedNameOf (markDeletedBase name basename) i)

end ScoresDict

/-- Full pointwise characterisation of a successful `rename`. -/
theorem rename_spec (s : ScoresDict) (old new : String) (lo : String) (ro : Record)
    (hne : old ≠ new)
    (hl : alookup s.lines old = some lo) (hr : alookup s.records old = some ro) :
    ∃ s', s.rename old new = some s' ∧
      (∀ k, alookup s'.records k =
        if k = new then some ro else if k = old then none else alookup s.records k) ∧
      (∀ k, alookup s'.lines k =
        if k = new then some (lineRewrite lo new)
        else if k = old then none else alookup s.lines k) ∧
      s'.header = s.header ∧ s'.metrics = s.metrics ∧ s'.rankingMetric = s.rankingMetric := by
  have hs' : s.rename old new = some { s with
      lines := ainsert (aerase s.lines old) new (lineRewrite lo new),
      records := ainsert (aerase s.records old) new ro } := by
    unfold ScoresDict.rename
    rw [if_neg hne, hl, hr]
  refine ⟨_, hs', ?_, ?_, rfl, rfl, rfl⟩
  · intro k
    by_cases hk : k = new
    · subst hk; simp [alookup_ainsert_self]
    · rw [alookup_ainsert_ne _ _ _ _ hk]
      by_cases hk' : k = old
      · subst hk'; simp [alookup_aerase_self, hk]
      · rw [alookup_aerase_ne _ _ _ hk']
        simp [hk, hk']
  · intro k
    by_cases hk : k = new
    · subst hk; simp [alookup_ainsert_self]
    · rw [alookup_ainsert_ne _ _ _ _ hk]
      by_cases hk' : k = old
      · subst hk'; simp [alookup_aerase_self, hk]
      · rw [alookup_aerase_ne _ _ _ hk']
        simp [hk, hk']

/-- C10: `rename(old, new)` with `old ≠ new` and `new` already a ledger key
silently overwrites the destination: afterwards `new` holds `old`'s record with
the stored line's trailing token rewritten to `new`, `old` is gone, every other
key is untouched (so the record and line previously under `new` are lost), and
no error is raised. -/
theorem rename_overwrites_existing_key (s : ScoresDict) (old new : String)
    (lo : String) (ro : Record)
    (hne : old ≠ new)
    (hl : alookup s.lines old = some lo) (hr : alookup s.records old = some ro)
    (_hnew : (alookup s.records new).isSome) :
    ∃ s', s.rename old new = some s' ∧
      alookup s'.records new = some ro ∧
      alookup s'.lines new = some (lineRewrite lo new) ∧
      alookup s'.records old = none ∧ alookup s'.lines old = none ∧
      (∀ k, k ≠ old → k ≠ new →
        alookup s'.records k = alookup s.records k ∧
        alookup s'.lines k = alookup s.lines k) := by
  obtain ⟨s', hs', hrec, hlin, -, -, -⟩ := rename_spec s old new lo ro hne hl hr
  refine ⟨s', hs', ?_, ?_, ?_, ?_, ?_⟩
  · rw [hrec new]; simp
  · rw [hlin new]; simp
  · rw [hrec old]; simp [hne, Ne.symm hne]
  · rw [hlin old]; simp [hne, Ne.symm hne]
  · intro k hko hkn
    constructor
    · rw [hrec k]; simp [hko, hkn]
    · rw [hlin k]; simp [hko, hkn]

/-- Witness for C10 on a two-key ledger. -/
theorem rename_overwrites_existing_key_witness :
    ∃ s', (ScoresDict.mk
        [("a.pdb", [("total_score", Value.num (-1))]), ("b.pdb", [("total_score", Value.num 2)])]
        [("a.pdb", "SCORE: -1.0 a.pdb"), ("b.pdb", "SCORE: 2.0 b.pdb")]
        "SCORE: total_score description" ["total_score"]
        (RankVal.metric "total_score")).rename "a.pdb" "b.pdb" = some s' ∧
      alookup s'.records "b.pdb" = some [("total_score", Value.num (-1))] ∧
      alookup s'.lines "b.pdb" = some (lineRewrite "SCORE: -1.0 a.pdb" "b.pdb") ∧
      alookup s'.records "a.pdb" = none ∧ alookup s'.lines "a.pdb" = none ∧
      (∀ k, k ≠ "a.pdb" → k ≠ "b.pdb" →
        alookup s'.records k =
          alookup [("a.pdb", [("total_score", Value.num (-1))]),
                   ("b.pdb", [("total_score", Value.num 2)])] k ∧
        alookup s'.lines k =
          alookup [("a.pdb", "SCORE: -1.0 a.pdb"), ("b.pdb", "SCORE: 2.0 b.pdb")] k) :=
  rename_overwrites_existing_key _ "a.pdb" "b.pdb" "SCORE: -1.0 a.pdb"
    [("total_score", Value.num (-1))] (by decide) (by decide) (by decide) (by decide)

theorem ne_append_temp (x : String) : x ≠ x ++ ".temp" := by
  intro h
  have hlen := congrArg (fun s => s.data.length) h
  simp [String.data_append] at hlen

theorem space_notin_append_temp (x : String) (hx : ' ' ∉ x.data) :
    ' ' ∉ (x ++ ".temp").data := by
  rw [String.data_append]
  intro hmem
  rcases List.mem_append.mp hmem with h | h
  · exact hx h
  · revert h; decide

/-- C6 (amended): `swap(a,b); swap(a,b)` restores the mapping provided the
temporary key `a+'.temp'` is not itself a ledger key, `a` and `b` contain no
space, and the stored lines of `a` and `b` each end in a single space followed
by their own key (as the claim's bare form fails when a stored line's trailing
token differs from its key, or when `a+'.temp'` collides with a real key). -/
theorem swap_swap_restores (s : ScoresDict) (a b la lb pa pb : String)
    (ra rb : Record)
    (hab : a ≠ b)
    (hra : alookup s.records a = some ra) (hla : alookup s.lines a = some la)
    (hrb : alookup s.records b = some rb) (hlb : alookup s.lines b = some lb)
    (htr : alookup s.records (a ++ ".temp") = none)
    (htl : alookup s.lines (a ++ ".temp") = none)
    (hsa : ' ' ∉ a.data) (hsb : ' ' ∉ b.data)
    (hpa : la = pa ++ " " ++ a) (hpb : lb = pb ++ " " ++ b) :
    ∃ s₃ s₆, s.swap a b = some s₃ ∧ s₃.swap a b = some s₆ ∧
      (∀ k, alookup s₆.records k = alookup s.records k) ∧
      (∀ k, alookup s₆.lines k = alookup s.lines k) := by
  set t := a ++ ".temp" with ht
  have hta : a ≠ t := ne_append_temp a
  have htb : b ≠ t := by
    intro h
    rw [h, htr] at hrb
    exact Option.noConfusion hrb
  have hba : b ≠ a := fun h => hab h.symm
  have hat : t ≠ a := fun h => hta h.symm
  have hbt : t ≠ b := fun h => htb h.symm
  have hst : ' ' ∉ t.data := space_notin_append_temp a hsa
  -- first swap
  obtain ⟨s1, e1, R1, L1, -, -, -⟩ := rename_spec s a t la ra hta hla hra
  have rb1 : alookup s1.records b = some rb := by
    rw [R1 b, if_neg htb, if_neg hba, hrb]
  have lb1 : alookup s1.lines b = some lb := by
    rw [L1 b, if_neg htb, if_neg hba, hlb]
  obtain ⟨s2, e2, R2, L2, -, -, -⟩ := rename_spec s1 b a lb rb hba lb1 rb1
  have rt2 : alookup s2.records t = some ra := by
    rw [R2 t, if_neg hat, if_neg hbt, R1 t, if_pos rfl]
  have lt2 : alookup s2.lines t = some (lineRewrite la t) := by
    rw [L2 t, if_neg hat, if_neg hbt, L1 t, if_pos rfl]
  obtain ⟨s3, e3, R3, L3, -, -, -⟩ := rename_spec s2 t b (lineRewrite la t) ra hbt lt2 rt2
  have hswap1 : s.swap a b = some s3 := by
    unfold ScoresDict.swap
    rw [if_neg hab]
    rw [← ht]
    simp only [e1, e2, e3]
  -- the state after the first swap
  have ra3 : alookup s3.records a = some rb := by
    rw [R3 a, if_neg hab, if_neg hta, R2 a, if_pos rfl]
  have la3 : alookup s3.lines a = some (lineRewrite lb a) := by
    rw [L3 a, if_neg hab, if_neg hta, L2 a, if_pos rfl]
  have rb3 : alookup s3.records b = some ra := by
    rw [R3 b, if_pos rfl]
  have lb3 : alookup s3.lines b = some (lineRewrite la b) := by
    rw [L3 b, if_pos rfl, lineRewrite_lineRewrite la t b hst]
  have rt3 : alookup s3.records t = none := by
    rw [R3 t, if_neg hbt, if_pos rfl]
  have lt3 : alookup s3.lines t = none := by
    rw [L3 t, if_neg hbt, if_pos rfl]
  -- second swap
  obtain ⟨s4, e4, R4, L4, -, -, -⟩ := rename_spec s3 a t (lineRewrite lb a) rb hta la3 ra3
  have rb4 : alookup s4.records b = some ra := by
    rw [R4 b, if_neg htb, if_neg hba, rb3]
  have lb4 : alookup s4.lines b = some (lineRewrite la b) := by
    rw [L4 b, if_neg htb, if_neg hba, lb3]
  obtain ⟨s5, e5, R5, L5, -, -, -⟩ := rename_spec s4 b a (lineRewrite la b) ra hba lb4 rb4
  have rt5 : alookup s5.records t = some rb := by
    rw [R5 t, if_neg hat, if_neg hbt, R4 t, if_pos rfl]
  have lt5 : alookup s5.lines t = some (lineRewrite (lineRewrite lb a) t) := by
    rw [L5 t, if_neg hat, if_neg hbt, L4 t, if_pos rfl]
  obtain ⟨s6, e6, R6, L6, -, -, -⟩ :=
    rename_spec s5 t b (lineRewrite (lineRewrite lb a) t) rb hbt lt5 rt5
  have hswap2 : s3.swap a b = some s6 := by
    unfold ScoresDict.swap
    rw [if_neg hab]
    rw [← ht]
    simp only [e4, e5, e6]
  refine ⟨s3, s6, hswap1, hswap2, ?_, ?_⟩
  · intro k
    by_cases hkb : k = b
    · rw [hkb, R6 b, if_pos rfl, hrb]
    · by_cases hkt : k = t
      · rw [hkt, R6 t, if_neg (fun h => htb h.symm), if_pos rfl, htr]
      · by_cases hka : k = a
        · rw [hka, R6 a, if_neg hab, if_neg hta, R5 a, if_pos rfl, hra]
        · rw [R6 k, if_neg hkb, if_neg hkt, R5 k, if_neg hka, if_neg hkb,
            R4 k, if_neg hkt, if_neg hka, R3 k, if_neg hkb, if_neg hkt,
            R2 k, if_neg hka, if_neg hkb, R1 k, if_neg hkt, if_neg hka]
  · intro k
    by_cases hkb : k = b
    · rw [hkb, L6 b, if_pos rfl, lineRewrite_lineRewrite _ t b hst,
        lineRewrite_lineRewrite lb a b hsa, hlb, hpb, lineRewrite_self pb b hsb]
    · by_cases hkt : k = t
      · rw [hkt, L6 t, if_neg (fun h => htb h.symm), if_pos rfl, htl]
      · by_cases hka : k = a
        · rw [hka, L6 a, if_neg hab, if_neg hta, L5 a, if_pos rfl,
            lineRewrite_lineRewrite la b a hsb, hla, hpa, lineRewrite_self pa a hsa]
        · rw [L6 k, if_neg hkb, if_neg hkt, L5 k, if_neg hka, if_neg hkb,
            L4 k, if_neg hkt, if_neg hka, L3 k, if_neg hkb, if_neg hkt,
            L2 k, if_neg hka, if_neg hkb, L1 k, if_neg hkt, if_neg hka]

/-- Witness for C6's amended statement on a two-key ledger with well-formed lines. -/
theorem swap_swap_restores_witness :
    ∃ s₃ s₆,
      (ScoresDict.mk
        [("a.pdb", [("total_score", Value.num 1)]), ("b.pdb", [("total_score", Value.num 2)])]
        [("a.pdb", "SCORE: 1.0 a.pdb"), ("b.pdb", "SCORE: 2.0 b.pdb")]
        "SCORE: total_score description" ["total_score"]
        (RankVal.metric "total_score")).swap "a.pdb" "b.pdb" = some s₃ ∧
      s₃.swap "a.pdb" "b.pdb" = some s₆ ∧
      (∀ k, alookup s₆.records k =
        alookup [("a.pdb", [("total_score", Value.num 1)]),
                 ("b.pdb", [("total_score", Value.num 2)])] k) ∧
      (∀ k, alookup s₆.lines k =
        alookup [("a.pdb", "SCORE: 1.0 a.pdb"), ("b.pdb", "SCORE: 2.0 b.pdb")] k) :=
  swap_swap_restores _ "a.pdb" "b.pdb" "SCORE: 1.0 a.pdb" "SCORE: 2.0 b.pdb"
    "SCORE: 1.0" "SCORE: 2.0" [("total_score", Value.num 1)] [("total_score", Value.num 2)]
    (by decide) (by decide) (by decide) (by decide) (by decide) (by decide) (by decide)
    (by decide) (by decide) (by decide) (by decide)

/-- C6 counterexample: on a loaded-ledger state whose stored line for `a.pdb`
ends in the parsed description token `/out/a` rather than in the key itself
(exactly what `__parseScoresFile` produces when the description is a path),
`swap; swap` does not restore the stored line. -/
theorem swap_swap_not_involutive_cex :
    alookup
      (ScoresDict.mk
        [("a.pdb", [("total_score", Value.num 1)]), ("b.pdb", [("total_score", Value.num 2)])]
        [("a.pdb", "SCORE: 1.0 /out/a"), ("b.pdb", "SCORE: 2.0 /out/b")]
        "SCORE: total_score description" ["total_score"]
        (RankVal.metric "total_score")).records "a.pdb" ≠ none ∧
    ((ScoresDict.mk
        [("a.pdb", [("total_score", Value.num 1)]), ("b.pdb", [("total_score", Value.num 2)])]
        [("a.pdb", "SCORE: 1.0 /out/a"), ("b.pdb", "SCORE: 2.0 /out/b")]
        "SCORE: total_score description" ["total_score"]
        (RankVal.metric "total_score")).swap "a.pdb" "b.pdb").bind
      (fun s₃ => (s₃.swap "a.pdb" "b.pdb").bind
        (fun s₆ => alookup s₆.lines "a.pdb")) = some "SCORE: 1.0 a.pdb" ∧
    "SCORE: 1.0 a.pdb" ≠ "SCORE: 1.0 /out/a" := by
  refine ⟨by decide, by decide, by decide⟩

/-! ## More string helpers: Python `split()`, `strip()`, `in`, `startswith`,
`os.path.basename`, `float()` -/

/-- Python `str.strip()` on a char list. -/
def stripL (l : List Char) : List Char :=
  ((l.dropWhile Char.isWhitespace).reverse.dropWhile Char.isWhitespace).reverse

/-- Python `str.strip()`. -/
def pyStrip (s : String) : String := String.mk (stripL s.data)

/-- Python `str.split()` with no argument: split on whitespace runs (the
accumulator holds the current word reversed). -/
def wordsAux : List Char → List Char → List (List Char)
  | [], acc => if acc.isEmpty then [] else [acc.reverse]
  | c :: cs, acc =>
    if c.isWhitespace then
      if acc.isEmpty then wordsAux cs [] else acc.reverse :: wordsAux cs []
    else wordsAux cs (c :: acc)

/-- Python `str.split()`. -/
def pySplitWS (s : String) : List String := (wordsAux s.data []).map String.mk

/-- Does `l` start with `pat`?  (Python `str.startswith`.) -/
def startsWithL : List Char → List Char → Bool
  | [], _ => true
  | _ :: _, [] => false
  | p :: ps, c :: cs => p == c && startsWithL ps cs

/-- Does `l` contain `pat` as a contiguous substring?  (Python `pat in s`.) -/
def hasPatL (pat : List Char) : List Char → Bool
  | [] => startsWithL pat []
  | c :: cs => startsWithL pat (c :: cs) || hasPatL pat cs

/-- Python `pat in s` for strings. -/
def strContains (pat s : String) : Bool := hasPatL pat.data s.data

/-- Python `s.startswith(pat)` for strings. -/
def strStartsWith (s pat : String) : Bool := startsWithL pat.data s.data

/-- Python `s.endswith(suf)` for strings. -/
def strEndsWith (s suf : String) : Bool := startsWithL suf.data.reverse s.data.reverse

/-- `os.path.basename`: everything after the last `'/'`. -/
def osBasename (s : String) : String :=
  String.mk ((s.data.reverse.takeWhile (· != '/')).reverse)

/-! ### A `float()` parser

Python's `float(...)` conversion, restricted to finite decimal/exponent
literals (the `inf`/`nan`/underscore forms are outside this model, and a float
is embedded as the exact rational it denotes). -/

/-- Numeric value of a digit list (most significant first). -/
def digitsVal (l : List Char) : Nat := l.foldl (fun a c => a * 10 + (c.toNat - 48)) 0

/-- Split at the first occurrence of `c`. -/
def splitAtChar (c : Char) : List Char → Option (List Char × List Char)
  | [] => none
  | d :: ds =>
    if d = c then some ([], ds)
    else (splitAtChar c ds).map (fun p => (d :: p.1, p.2))

/-- A nonempty all-digit chunk. -/
def parseUIntChars (l : List Char) : Option Nat :=
  if l.isEmpty then none
  else if l.all Char.isDigit then some (digitsVal l) else none

/-- `D+ | D+.D* | .D+` (at least one digit overall). -/
def parseMantissa (l : List Char) : Option ℚ :=
  match splitAtChar '.' l with
  | none => (parseUIntChars l).map (fun n => (n : ℚ))
  | some (ip, fp) =>
    if ip.isEmpty && fp.isEmpty then none
    else if ip.all Char.isDigit && fp.all Char.isDigit then
      some ((digitsVal ip : ℚ) + (digitsVal fp : ℚ) / ((10 : ℚ) ^ fp.length))
    else none

/-- Optionally signed integer exponent. -/
def parseExp (l : List Char) : Option ℤ :=
  match l with
  | '+' :: ds => (parseUIntChars ds).map (fun n => (n : ℤ))
  | '-' :: ds => (parseUIntChars ds).map (fun n => -(n : ℤ))
  | ds => (parseUIntChars ds).map (fun n => (n : ℤ))

/-- Unsigned float literal: mantissa with optional `e`-exponent. -/
def pyFloatCore (l : List Char) : Option ℚ :=
  match splitAtChar 'e' l with
  | none => parseMantissa l
  | some (m, e) =>
    match parseMantissa m, parseExp e with
    | some qm, some qe => some (qm * (10 : ℚ) ^ qe)
    | _, _ => none

/-- Python `float(s)` on finite literals: `none` embeds the `ValueError`. -/
def pyFloat (s : String) : Option ℚ :=
  let l := (stripL s.data).map Char.toLower
  match l with
  | '+' :: rest => pyFloatCore rest
  | '-' :: rest => (pyFloatCore rest).map (fun q => -q)
  | rest => pyFloatCore rest

/-- `floatIfIs` of `__parseScoresFile`: the float if conversion succeeds, else the raw string. -/
def floatIfIs (s : String) : Value :=
  match pyFloat s with
  | some q => Value.num q
  | none => Value.raw s

/-! ## Ledger load (`ScoresDict.__parseScoresFile`) and kind inference
(`__determineType`) -/

/-- Outcome of `__parseScoresFile`: `ok` on success; `err` carries the state as
left by the `except` clause (which re-raises after clearing). -/
inductive ParseOutcome
  | ok (s : ScoresDict)
  | err (s : ScoresDict)
  deriving DecidableEq

/-- One data line of the score file: `segs = line.split()[1:]`, the popped last
segment (after `os.path.basename`, forced to a `.pdb` suffix) names the decoy,
and the remaining segments are zipped against the header.  `none` embeds the
`IndexError` of `segs.pop()` on a line with fewer than two tokens. -/
def parseDataLine (metricsHeader : List String) (st : ScoresDict) (line : String) :
    Option ScoresDict :=
  let segs := (pySplitWS line).drop 1
  match segs.getLast? with
  | none => none
  | some last =>
    let name0 := osBasename (pyStrip last)
    let name := if strEndsWith name0 ".pdb" then name0 else name0 ++ ".pdb"
    let rec0 : Record :=
      (List.zip metricsHeader (segs.dropLast.map floatIfIs)).foldl
        (fun r p => ainsert r p.1 p.2) []
    some { st with records := ainsert st.records name rec0,
                   lines := ainsert st.lines name (pyStrip line) }

/-- The data-line loop of `__parseScoresFile`, with the `except` clause: on the
first failing line, clear the header, the lines dict and the records dict and
re-raise (the metrics list and ranking metric are left as they are). -/
def parseDataLines (metricsHeader : List String) : ScoresDict → List String → ParseOutcome
  | st, [] => .ok st
  | st, line :: rest =>
    match parseDataLine metricsHeader st line with
    | none => .err { st with header := "", lines := [], records := [] }
    | some st' => parseDataLines metricsHeader st' rest

/-- `__parseScoresFile` over the list of file lines (without trailing
newlines).  The first line is either a `SEQUENCE:` marker (then the header is
the second line and the marker — newline included — is prepended to the stored
header) or the header itself.  The header's first token is dropped and tokens
containing `description` are filtered out. -/
def parseScoresFile (fileLines : List String) : ParseOutcome :=
  let first := fileLines.headD ""
  let isSeq := strStartsWith first "SEQUENCE:"
  let temp := if isSeq then first ++ "\n" else ""
  let headerLine := if isSeq then pyStrip ((fileLines.drop 1).headD "") else pyStrip first
  let rest := if isSeq then fileLines.drop 2 else fileLines.drop 1
  let scoresHeader :=
    ((pySplitWS headerLine).drop 1).filter (fun tok => !(strContains "description" tok))
  parseDataLines scoresHeader
    ⟨[], [], temp ++ headerLine, scoresHeader, RankVal.cols scoresHeader⟩ rest

/-- `__determineType`: infer the score-file kind and the ranking metric from
the metric list and the filename suffix.  `none` embeds the `IndexError` of
`metrics[0]` on an empty metric list. -/
def determineType (suffix : String) (metrics : List String) :
    Option (Option String × String) :=
  if "total_score" ∈ metrics then
    some (if "I_sc" ∈ metrics then some "docking"
          else if "aln_len" ∈ metrics then some "homology"
          else if suffix = "sc" then some "floppytail"
          else none,
          "total_score")
  else if "total_energy" ∈ metrics then some (some "loopmodel", "total_energy")
  else if "score" ∈ metrics then
    some (if suffix = "fsc" then some "abinitio" else none, "score")
  else
    match metrics with
    | [] => none
    | m :: _ => some (some "unknown", m)

/-- C4 (amended): any parse error during load aborts the load, clears the
record map, the stored lines and the header, and re-raises — but the metrics
list and the ranking metric parsed from the header are retained, so the header
metadata is not fully cleared. -/
theorem parse_error_clears_records_lines_header (fileLines : List String) (st' : ScoresDict)
    (h : parseScoresFile fileLines = .err st') :
    st'.records = [] ∧ st'.lines = [] ∧ st'.header = "" := by
  have main : ∀ (mh : List String) (st : ScoresDict) (ls : List String),
      parseDataLines mh st ls = .err st' →
      st'.records = [] ∧ st'.lines = [] ∧ st'.header = "" := by
    intro mh st ls
    induction ls generalizing st with
    | nil => intro h; exact absurd h (by simp [parseDataLines])
    | cons line rest ih =>
      intro h
      rw [parseDataLines] at h
      cases hdl : parseDataLine mh st line with
      | none =>
        rw [hdl] at h
        have heq : ({ st with header := "", lines := [], records := [] } : ScoresDict) = st' := by
          injection h
        rw [← heq]
        exact ⟨rfl, rfl, rfl⟩
      | some st2 =>
        rw [hdl] at h
        exact ih st2 h
  exact main _ _ _ h

/-- Witness for C4's amended statement at a score file with a short final line. -/
theorem parse_error_clears_records_lines_header_witness :
    parseScoresFile ["SCORE: total_score description", "SCORE: 4.0 a.pdb", "bad"] =
      ParseOutcome.err (ScoresDict.mk [] [] "" ["total_score"] (RankVal.cols ["total_score"])) ∧
    ((ScoresDict.mk [] [] "" ["total_score"] (RankVal.cols ["total_score"])).records = [] ∧
     (ScoresDict.mk [] [] "" ["total_score"] (RankVal.cols ["total_score"])).lines = [] ∧
     (ScoresDict.mk [] [] "" ["total_score"] (RankVal.cols ["total_score"])).header = "") :=
  ⟨by decide,
    parse_error_clears_records_lines_header
      ["SCORE: total_score description", "SCORE: 4.0 a.pdb", "bad"]
      (ScoresDict.mk [] [] "" ["total_score"] (RankVal.cols ["total_score"]))
      (by decide)⟩

/-- C4 counterexample: after a parse error the metrics list (and the ranking
metric) parsed from the header are retained, not cleared — the claim's
"clears ... header/metric metadata" fails for the metric metadata. -/
theorem parse_error_keeps_metrics_cex :
    parseScoresFile ["SCORE: total_score description", "SCORE: 4.0 a.pdb", "bad"] =
      ParseOutcome.err (ScoresDict.mk [] [] "" ["total_score"] (RankVal.cols ["total_score"])) ∧
    (["total_score"] : List String) ≠ [] ∧
    RankVal.cols ["total_score"] ≠ RankVal.unset := by
  refine ⟨by decide, by decide, by decide⟩

/-! ## `ScoresDict.sort`: Python `sorted(self, key=...)`

Python's `sorted` is a stable ascending sort by the key values; it is embedded
as a stable insertion sort.  Comparing a float with a string raises `TypeError`
in Python — the Bool order `valLe` totalises that case (numbers before raw
strings), and every theorem below restricts to single-typed columns. -/

/-- Insert `a` into `l` before the first element `b` with `le a b`. -/
def insertLe {α : Type} (le : α → α → Bool) (a : α) : List α → List α
  | [] => [a]
  | b :: l => if le a b then a :: b :: l else b :: insertLe le a l

/-- Stable insertion sort by a Bool order. -/
def sortLe {α : Type} (le : α → α → Bool) : List α → List α
  | [] => []
  | b :: l => insertLe le b (sortLe le l)

theorem perm_insertLe {α : Type} (le : α → α → Bool) (a : α) (l : List α) :
    (insertLe le a l).Perm (a :: l) := by
  induction l with
  | nil => exact List.Perm.refl _
  | cons b l ih =>
    simp only [insertLe]
    by_cases h : le a b = true
    · rw [if_pos h]
    · rw [if_neg h]
      exact ((ih.cons b).trans (List.Perm.swap a b l))

theorem perm_sortLe {α : Type} (le : α → α → Bool) (l : List α) :
    (sortLe le l).Perm l := by
  induction l with
  | nil => exact List.Perm.refl _
  | cons b l ih =>
    exact (perm_insertLe le b (sortLe le l)).trans (ih.cons b)

theorem mem_insertLe {α : Type} (le : α → α → Bool) (a x : α) (l : List α) :
    x ∈ insertLe le a l ↔ x = a ∨ x ∈ l :=
  ((perm_insertLe le a l).mem_iff).trans (by simp)

theorem pairwise_insertLe {α : Type} (le : α → α → Bool)
    (htrans : ∀ a b c, le a b = true → le b c = true → le a c = true)
    (htot : ∀ a b, le a b = true ∨ le b a = true)
    (a : α) (l : List α) (hl : l.Pairwise (fun x y => le x y = true)) :
    (insertLe le a l).Pairwise (fun x y => le x y = true) := by
  induction l with
  | nil => simp [insertLe]
  | cons b l ih =>
    rcases List.pairwise_cons.mp hl with ⟨hb, hl'⟩
    simp only [insertLe]
    by_cases h : le a b = true
    · rw [if_pos h]
      refine List.pairwise_cons.mpr ⟨?_, hl⟩
      intro x hx
      rcases List.mem_cons.mp hx with hx | hx
      · subst hx; exact h
      · exact htrans a b x h (hb x hx)
    · rw [if_neg h]
      refine List.pairwise_cons.mpr ⟨?_, ih hl'⟩
      intro x hx
      rcases (mem_insertLe le a x l).mp hx with hx | hx
      · rw [hx]
        rcases htot a b with h' | h'
        · exact absurd h' h
        · exact h'
      · exact hb x hx

theorem pairwise_sortLe {α : Type} (le : α → α → Bool)
    (htrans : ∀ a b c, le a b = true → le b c = true → le a c = true)
    (htot : ∀ a b, le a b = true ∨ le b a = true) (l : List α) :
    (sortLe le l).Pairwise (fun x y => le x y = true) := by
  induction l with
  | nil => simp [sortLe]
  | cons b l ih => exact pairwise_insertLe le htrans htot b (sortLe le l) ih

/-- The order Python's `sorted` applies to the key values: floats by value,
strings lexicographically (mixed pairs would raise in Python and are ordered
arbitrarily here). -/
def valLe : Value → Value → Bool
  | .num a, .num b => decide (a ≤ b)
  | .num _, .raw _ => true
  | .raw _, .num _ => false
  | .raw a, .raw b => decide (a ≤ b)

theorem valLe_trans : ∀ (a b c : Value), valLe a b = true → valLe b c = true → valLe a c = true
  | .num x, .num y, .num z, hab, hbc => by
      simp only [valLe, decide_eq_true_eq] at *
      exact le_trans hab hbc
  | .num _, .num _, .raw _, _, _ => rfl
  | .num _, .raw _, .num _, _, hbc => by simp [valLe] at hbc
  | .num _, .raw _, .raw _, _, _ => rfl
  | .raw _, .num _, _, hab, _ => by simp [valLe] at hab
  | .raw _, .raw _, .num _, _, hbc => by simp [valLe] at hbc
  | .raw x, .raw y, .raw z, hab, hbc => by
      simp only [valLe, decide_eq_true_eq] at *
      exact le_trans hab hbc

theorem valLe_total : ∀ (a b : Value), valLe a b = true ∨ valLe b a = true
  | .num x, .num y => by simpa [valLe] using le_total x y
  | .num _, .raw _ => Or.inl rfl
  | .raw _, .num _ => Or.inr rfl
  | .raw x, .raw y => by simpa [valLe] using le_total x y

/-- `self[name][metric]`. -/
def sortKeyOf (s : ScoresDict) (name metric : String) : Option Value :=
  (alookup s.records name).bind (fun r => alookup r metric)

/-- `if metric not in self.__metrics: metric = self.__rankingMetric`. -/
def effectiveMetric (s : ScoresDict) (metric : Option String) : RankVal :=
  match metric with
  | some m => if m ∈ s.metrics then RankVal.metric m else s.rankingMetric
  | none => s.rankingMetric

/-- `ScoresDict.sort(metric=None)`: the decoy names stably sorted ascending by
the effective metric's values.  `none` embeds the `KeyError`/`TypeError` raised
when the effective metric is missing from some record (or is not a string). -/
def ScoresDict.sort (s : ScoresDict) (metric : Option String) : Option (List String) :=
  match effectiveMetric s metric with
  | RankVal.metric m =>
    if (akeys s.records).all (fun n => (sortKeyOf s n m).isSome) then
      some (sortLe (fun n1 n2 =>
        valLe ((sortKeyOf s n1 m).getD (Value.raw ""))
              ((sortKeyOf s n2 m).getD (Value.raw ""))) (akeys s.records))
    else none
  | _ => none

/-- C5 (amended): `sort(m)` returns the artifact names in *ascending* order of
metric `m` — the code has no per-metric direction, so no metric is sorted
descending; it falls back to the inferred ranking metric when `m` is not a
metric of the file; and `__determineType` defaults the ranking metric to the
first header column when no known pattern matches. -/
theorem sort_ascending_with_fallback :
    (∀ (s : ScoresDict) (m : String) (qv : String → ℚ),
        m ∈ s.metrics →
        (∀ n ∈ akeys s.records, sortKeyOf s n m = some (Value.num (qv n))) →
        ∃ out, s.sort (some m) = some out ∧ out.Perm (akeys s.records) ∧
          out.Pairwise (fun n1 n2 => qv n1 ≤ qv n2)) ∧
    (∀ (s : ScoresDict) (m : String), m ∉ s.metrics → s.sort (some m) = s.sort none) ∧
    (∀ (suffix m : String) (rest : List String),
        "total_score" ∉ m :: rest → "total_energy" ∉ m :: rest → "score" ∉ m :: rest →
        determineType suffix (m :: rest) = some (some "unknown", m)) := by
  refine ⟨?_, ?_, ?_⟩
  · intro s m qv hm hq
    have hkey : ∀ n ∈ akeys s.records,
        (sortKeyOf s n m).getD (Value.raw "") = Value.num (qv n) := by
      intro n hn
      rw [hq n hn]
      rfl
    have hall : (akeys s.records).all (fun n => (sortKeyOf s n m).isSome) = true := by
      rw [List.all_eq_true]
      intro n hn
      rw [hq n hn]
      rfl
    refine ⟨sortLe (fun n1 n2 =>
        valLe ((sortKeyOf s n1 m).getD (Value.raw ""))
              ((sortKeyOf s n2 m).getD (Value.raw ""))) (akeys s.records), ?_, ?_, ?_⟩
    · have hEff : effectiveMetric s (some m) = RankVal.metric m := by
        simp only [effectiveMetric]
        rw [if_pos hm]
      unfold ScoresDict.sort
      rw [hEff]
      show (if ((akeys s.records).all fun n => (sortKeyOf s n m).isSome) = true
          then some (sortLe (fun n1 n2 =>
            valLe ((sortKeyOf s n1 m).getD (Value.raw ""))
                  ((sortKeyOf s n2 m).getD (Value.raw ""))) (akeys s.records))
          else none) = _
      rw [if_pos hall]
    · exact perm_sortLe _ _
    · have hpw := pairwise_sortLe
        (fun n1 n2 => valLe ((sortKeyOf s n1 m).getD (Value.raw ""))
                            ((sortKeyOf s n2 m).getD (Value.raw "")))
        (fun a b c hab hbc => valLe_trans _ _ _ hab hbc)
        (fun a b => valLe_total _ _) (akeys s.records)
      have hmem : ∀ x ∈ sortLe (fun n1 n2 =>
          valLe ((sortKeyOf s n1 m).getD (Value.raw ""))
                ((sortKeyOf s n2 m).getD (Value.raw ""))) (akeys s.records),
          x ∈ akeys s.records :=
        fun x hx => (perm_sortLe _ _).mem_iff.mp hx
      refine hpw.imp_of_mem ?_
      intro n1 n2 h1 h2 hle
      rw [hkey n1 (hmem n1 h1), hkey n2 (hmem n2 h2)] at hle
      simpa [valLe] using hle
  · intro s m hm
    have hEff : effectiveMetric s (some m) = s.rankingMetric := by
      simp only [effectiveMetric]
      rw [if_neg hm]
    have hEff2 : effectiveMetric s none = s.rankingMetric := rfl
    unfold ScoresDict.sort
    rw [hEff, hEff2]
  · intro suffix m rest h1 h2 h3
    unfold determineType
    rw [if_neg h1, if_neg h2, if_neg h3]

/-- Witness for C5's amended statement: an `aln_len` column sorted ascending,
the unknown-metric fallback, and the first-column default. -/
theorem sort_ascending_with_fallback_witness :
    (∃ out,
      (ScoresDict.mk
        [("a.pdb", [("aln_len", Value.num 3)]), ("b.pdb", [("aln_len", Value.num 5)])]
        [("a.pdb", "x 3 a.pdb"), ("b.pdb", "x 5 b.pdb")] "x aln_len description"
        ["aln_len"] (RankVal.metric "aln_len")).sort (some "aln_len") = some out ∧
      out.Perm (akeys [("a.pdb", [("aln_len", Value.num 3)]),
                       ("b.pdb", [("aln_len", Value.num 5)])]) ∧
      out.Pairwise (fun n1 n2 =>
        (if n1 = "a.pdb" then (3:ℚ) else 5) ≤ (if n2 = "a.pdb" then (3:ℚ) else 5))) ∧
    (ScoresDict.mk
        [("a.pdb", [("aln_len", Value.num 3)]), ("b.pdb", [("aln_len", Value.num 5)])]
        [("a.pdb", "x 3 a.pdb"), ("b.pdb", "x 5 b.pdb")] "x aln_len description"
        ["aln_len"] (RankVal.metric "aln_len")).sort (some "zzz") =
      (ScoresDict.mk
        [("a.pdb", [("aln_len", Value.num 3)]), ("b.pdb", [("aln_len", Value.num 5)])]
        [("a.pdb", "x 3 a.pdb"), ("b.pdb", "x 5 b.pdb")] "x aln_len description"
        ["aln_len"] (RankVal.metric "aln_len")).sort none ∧
    determineType "fasc" ["foo", "bar"] = some (some "unknown", "foo") :=
  ⟨sort_ascending_with_fallback.1 _ "aln_len" (fun n => if n = "a.pdb" then (3:ℚ) else 5)
      (by decide) (by decide),
   sort_ascending_with_fallback.2.1 _ "zzz" (by decide),
   sort_ascending_with_fallback.2.2 "fasc" "foo" ["bar"] (by decide) (by decide) (by decide)⟩

/-- C5 counterexample: `aln_len` (an alignment length, higher is better under
the spec's convention) is still returned in ascending order — the lower value
first — so `sort` does not honour a descending convention for any metric. -/
theorem sort_not_descending_cex :
    (ScoresDict.mk
      [("a.pdb", [("aln_len", Value.num 3)]), ("b.pdb", [("aln_len", Value.num 5)])]
      [("a.pdb", "x 3 a.pdb"), ("b.pdb", "x 5 b.pdb")] "x aln_len description"
      ["aln_len"] (RankVal.metric "aln_len")).sort (some "aln_len") =
      some ["a.pdb", "b.pdb"] ∧
    ((3:ℚ) < 5) ∧ (["a.pdb", "b.pdb"] : List String) ≠ ["b.pdb", "a.pdb"] := by
  refine ⟨by decide, by decide, by decide⟩

/-! ## The pdb filter (`rosetta/pdbFilter.py`, class `PdbFilter`)

Atom coordinates are embedded as triples of exact rationals. -/

/-- An atom coordinate `(x, y, z)`. -/
abbrev Coord := ℚ × ℚ × ℚ

/-- The mutable state of a `PdbFilter`: registered constraints, the residues to
parse per chain, and the four geometry dicts filled by `__parseCoordsFromPdb`. -/
structure PdbFilterState where
  distConstraints : List (String × List (String × ℚ))
  residuesToParse : List (String × List String)
  proteinAtoms : List (String × List (String × List Coord))
  proteinNs : List (String × List (String × Coord))
  residueAtoms : List (String × List Coord)
  residueNs : List (String × Coord)
  deriving DecidableEq

/-- A Python value that may or may not be a `str` (for `type(x) is not str` checks). -/
inductive PyVal
  | str (s : String)
  | other
  deriving DecidableEq

/-- `d[k].append(v)` with `d[k] = [v]` when `k` is absent. -/
def appendAt {α : Type} (l : List (String × List α)) (k : String) (v : α) :
    List (String × List α) :=
  match alookup l k with
  | some vs => ainsert l k (vs ++ [v])
  | none => l ++ [(k, [v])]

/-- Python `s.upper()` (ASCII). -/
def pyUpper (s : String) : String := String.mk (s.data.map Char.toUpper)

/-- `PdbFilter.addDistConstraint(res, toChain, dist)`: reject non-string
`res`/`toChain` with `False`; otherwise normalise `res` (strip + upper), store
`(res, dist)` under the raw `toChain` key and `res[:-1]` under the `res[-1]`
chain key, and return `True`.  `none` embeds the `IndexError` of `res[-1]` on
an empty normalised residue (`dist` is already converted by `float`). -/
def addDistConstraint (st : PdbFilterState) (res toChain : PyVal) (dist : ℚ) :
    Option (Bool × PdbFilterState) :=
  match res, toChain with
  | PyVal.str rs, PyVal.str tc =>
    let r := pyUpper (pyStrip rs)
    let dc' := appendAt st.distConstraints tc (r, dist)
    match r.data.getLast? with
    | none => none
    | some c =>
      some (true,
        { st with distConstraints := dc',
                  residuesToParse := appendAt st.residuesToParse (String.mk [c]) (dropLastN 1 r) })
  | _, _ => some (false, st)

theorem alookup_appendAt_self {α : Type} (l : List (String × List α)) (k : String) (v : α) :
    alookup (appendAt l k v) k = some ((alookup l k).getD [] ++ [v]) := by
  unfold appendAt
  cases hh : alookup l k with
  | some vs => rw [alookup_ainsert_self]; rfl
  | none =>
    rw [alookup_append, hh]
    simp [alookup]

theorem alookup_appendAt_ne {α : Type} (l : List (String × List α)) (k k' : String) (v : α)
    (h : k' ≠ k) :
    alookup (appendAt l k v) k' = alookup l k' := by
  unfold appendAt
  cases hh : alookup l k with
  | some vs => rw [alookup_ainsert_ne _ _ _ _ h]
  | none =>
    rw [alookup_append]
    have hkk : ¬ k = k' := fun hq => h hq.symm
    cases hh2 : alookup l k' with
    | none => simp [alookup, hkk]
    | some w => simp

/-- C8 (amended): `addDistConstraint` returns `False` (touching nothing) when
either argument is not a string; otherwise (for a residue that is nonempty
after normalisation) it returns `True` having stored the *residue* normalised —
trimmed and uppercased — while the *chain* key is stored exactly as given,
without trimming or uppercasing. -/
theorem addDistConstraint_normalizes_residue_only :
    (∀ (st : PdbFilterState) (rs tc : String) (dist : ℚ),
        pyUpper (pyStrip rs) ≠ "" →
        ∃ st', addDistConstraint st (PyVal.str rs) (PyVal.str tc) dist = some (true, st') ∧
          alookup st'.distConstraints tc =
            some ((alookup st.distConstraints tc).getD [] ++ [(pyUpper (pyStrip rs), dist)]) ∧
          (∀ k, k ≠ tc → alookup st'.distConstraints k = alookup st.distConstraints k)) ∧
    (∀ (st : PdbFilterState) (v w : PyVal) (dist : ℚ),
        v = PyVal.other ∨ w = PyVal.other →
        addDistConstraint st v w dist = some (false, st)) := by
  constructor
  · intro st rs tc dist hne
    have hdata : pyUpper (pyStrip rs) ≠ "" → (pyUpper (pyStrip rs)).data ≠ [] := by
      intro h hd
      apply h
      cases hcase : pyUpper (pyStrip rs) with
      | mk d => rw [hcase] at hd; simp at hd; rw [hd]
    cases hgl : (pyUpper (pyStrip rs)).data.getLast? with
    | none =>
      exact absurd (List.getLast?_eq_none_iff.mp hgl) (hdata hne)
    | some c =>
      refine ⟨{ st with
          distConstraints := appendAt st.distConstraints tc (pyUpper (pyStrip rs), dist),
          residuesToParse :=
            appendAt st.residuesToParse (String.mk [c]) (dropLastN 1 (pyUpper (pyStrip rs))) },
        ?_, ?_, ?_⟩
      · simp only [addDistConstraint]
        rw [hgl]
      · exact alookup_appendAt_self _ _ _
      · intro k hk
        exact alookup_appendAt_ne _ _ _ _ hk
  · intro st v w dist h
    rcases h with h | h
    · subst h; rfl
    · subst h; cases v <;> rfl

/-- Witness for C8's amended statement: a lowercase residue with surrounding
blanks is normalised while the chain key `" b "` is stored raw. -/
theorem addDistConstraint_normalizes_residue_only_witness :
    (∃ st', addDistConstraint ⟨[], [], [], [], [], []⟩
        (PyVal.str " lys212t ") (PyVal.str " b ") 5 = some (true, st') ∧
      alookup st'.distConstraints " b " =
        some ((alookup ([] : List (String × List (String × ℚ))) " b ").getD [] ++
          [(pyUpper (pyStrip " lys212t "), 5)]) ∧
      (∀ k, k ≠ " b " → alookup st'.distConstraints k =
        alookup ([] : List (String × List (String × ℚ))) k)) ∧
    addDistConstraint ⟨[], [], [], [], [], []⟩ PyVal.other (PyVal.str "B") 5 =
      some (false, ⟨[], [], [], [], [], []⟩) :=
  ⟨addDistConstraint_normalizes_residue_only.1 ⟨[], [], [], [], [], []⟩
      " lys212t " " b " 5 (by decide),
   addDistConstraint_normalizes_residue_only.2 ⟨[], [], [], [], [], []⟩
      PyVal.other (PyVal.str "B") 5 (Or.inl rfl)⟩

/-- C8 counterexample: the chain identifier is stored exactly as passed —
`" b "` is neither trimmed nor uppercased — so the registered state does not
hold an uppercase, trimmed chain key. -/
theorem addDistConstraint_chain_unnormalized_cex :
    addDistConstraint ⟨[], [], [], [], [], []⟩ (PyVal.str "lys212t") (PyVal.str " b ") 5 =
      some (true, ⟨[(" b ", [("LYS212T", 5)])], [("T", ["LYS212"])], [], [], [], []⟩) ∧
    (" b " : String) ≠ "B" ∧ (" b " : String) ≠ " B " ∧ (" b " : String) ≠ "b" := by
  refine ⟨by decide, by decide, by decide, by decide⟩

/-! ## Geometry extraction (`PdbFilter.__parseCoordsFromPdb`) -/

/-- Python `line[i]`: `none` embeds the `IndexError`. -/
def charAt (s : String) (i : Nat) : Option Char := s.data.get? i

/-- Python `line[a:b]` (clamping slice). -/
def slice (s : String) (a b : Nat) : String := String.mk ((s.data.drop a).take (b - a))

/-- One line of the atom-record loop: skip non-`ATOM` lines and hydrogens,
then accumulate the atom's coordinates into the chain maps (for chains with
constraints) and the residue maps (for constrained residues), recording the
first atom of a residue as its backbone coordinate.  `none` embeds the
exceptions of `line[13]`, `line[21]` and the three `float(...)` conversions. -/
def parsePdbLine (st : PdbFilterState) (line : String) : Option PdbFilterState :=
  if !(strStartsWith line "ATOM") then some st
  else match charAt line 13 with
  | none => none
  | some c13 =>
    if c13 = 'H' then some st
    else match charAt line 21 with
    | none => none
    | some c21 =>
      let chainID := String.mk [c21]
      let inDc := (alookup st.distConstraints chainID).isSome
      let inRtp := (alookup st.residuesToParse chainID).isSome
      if inDc || inRtp then
        let resCodeNum := slice line 17 20 ++ pyStrip (slice line 22 26)
        match pyFloat (slice line 30 38), pyFloat (slice line 38 46),
              pyFloat (slice line 46 54) with
        | some x, some y, some z =>
          let coord : Coord := (x, y, z)
          let st1 :=
            if inDc then
              let paC := (alookup st.proteinAtoms chainID).getD []
              let cur := (alookup paC resCodeNum).getD []
              let pns :=
                if cur.isEmpty then
                  ainsert st.proteinNs chainID
                    (ainsert ((alookup st.proteinNs chainID).getD []) resCodeNum coord)
                else st.proteinNs
              { st with
                proteinAtoms := ainsert st.proteinAtoms chainID
                  (ainsert paC resCodeNum (cur ++ [coord])),
                proteinNs := pns }
            else st
          let st2 :=
            if inRtp then
              let rcn2 := resCodeNum ++ chainID
              let cur2 := (alookup st1.residueAtoms rcn2).getD []
              { st1 with
                residueAtoms := ainsert st1.residueAtoms rcn2 (cur2 ++ [coord]),
                residueNs :=
                  if cur2.isEmpty then ainsert st1.residueNs rcn2 coord else st1.residueNs }
            else st1
          some st2
        | _, _, _ => none
      else some st

/-- The `for line in f` loop under `try/finally`: an exception on any line
propagates, leaving the maps as filled so far (carried in the `error`). -/
def parsePdbLines : PdbFilterState → List String → Except PdbFilterState PdbFilterState
  | st, [] => .ok st
  | st, line :: rest =>
    match parsePdbLine st line with
    | none => .error st
    | some st' => parsePdbLines st' rest

/-- `__parseCoordsFromPdb(filepath)` over an optional file content (`none` for
a missing file).  On a missing file, `open` raises and the `finally` clause's
`f.close()` on the unbound handle raises again — either way an exception
propagates, embedded as `error` carrying the state at the raise; there is no
silent return.  On success the Python function returns `True`. -/
def parseCoordsFromPdb (st : PdbFilterState) (file : Option (List String)) :
    Except PdbFilterState (PdbFilterState × Bool) :=
  match file with
  | none => .error st
  | some ls =>
    match parsePdbLines st ls with
    | .error st' => .error st'
    | .ok st' => .ok (st', true)

/-! ## Constraint evaluation (`PdbFilter.__testConstraints` /
`__checkAtomDistances`) -/

/-- Squared Euclidean distance of two coordinates. -/
def sqDist (p q : Coord) : ℚ :=
  (p.1 - q.1)^2 + (p.2.1 - q.2.1)^2 + (p.2.2 - q.2.2)^2

/-- `math.sqrt(sq) <= dist` for an exact squared distance `sq ≥ 0`:
equivalent to `0 ≤ dist ∧ sq ≤ dist²`. -/
def sqrtLe (sq dist : ℚ) : Bool := decide (0 ≤ dist ∧ sq ≤ dist ^ 2)

/-- `__checkAtomDistances`: some atom pair within `dist` (first found wins). -/
def checkAtomDistances (dist : ℚ) (l1 l2 : List Coord) : Bool :=
  l1.any fun c1 => l2.any fun c2 => sqrtLe (sqDist c1 c2) dist

/-- The per-axis backbone box pre-check against `nearDist`. -/
def precheckNear (rN nC : Coord) (near : ℚ) : Bool :=
  decide (|rN.1 - nC.1| ≤ near ∧ |rN.2.1 - nC.2.1| ≤ near ∧ |rN.2.2 - nC.2.2| ≤ near)

/-- The candidate-residue loop of one constraint: first candidate passing the
pre-check whose atoms reach within `dist` satisfies it; `none` embeds the
`KeyError` of `proteinAtoms[chainID][resCode]`. -/
def findSatisfyingRes (st : PdbFilterState) (chainID : String) (dist near : ℚ)
    (resN : Coord) (res1Atoms : List Coord) : List (String × Coord) → Option Bool
  | [] => some false
  | (resCode, nC) :: rest =>
    if precheckNear resN nC near then
      match (alookup st.proteinAtoms chainID).bind (fun m => alookup m resCode) with
      | none => none
      | some res2Atoms =>
        if checkAtomDistances dist res1Atoms res2Atoms then some true
        else findSatisfyingRes st chainID dist near resN res1Atoms rest
    else findSatisfyingRes st chainID dist near resN res1Atoms rest

/-- One `(res, dist)` constraint against chain `chainID`; `none` embeds the
`KeyError` of `residueNs[res]`, `residueAtoms[res]` or `proteinNs[chainID]`. -/
def testOneConstraint (st : PdbFilterState) (chainID res : String) (dist : ℚ) : Option Bool :=
  match alookup st.residueNs res, alookup st.residueAtoms res,
        alookup st.proteinNs chainID with
  | some resN, some res1Atoms, some chainNs =>
    findSatisfyingRes st chainID dist (max 20 (dist + 10)) resN res1Atoms chainNs
  | _, _, _ => none

/-- All constraints of one target chain (short-circuiting on the first failure). -/
def testChainConstraints (st : PdbFilterState) (chainID : String) :
    List (String × ℚ) → Option Bool
  | [] => some true
  | (res, dist) :: rest =>
    match testOneConstraint st chainID res dist with
    | none => none
    | some true => testChainConstraints st chainID rest
    | some false => some false

/-- The outer loop over `distConstraints.items()`. -/
def testAllConstraints (st : PdbFilterState) :
    List (String × List (String × ℚ)) → Option Bool
  | [] => some true
  | (ch, l) :: rest =>
    match testChainConstraints st ch l with
    | none => none
    | some true => testAllConstraints st rest
    | some false => some false

/-- `__testConstraints`: `True` iff every registered constraint is satisfied. -/
def testConstraints (st : PdbFilterState) : Option Bool :=
  testAllConstraints st st.distConstraints

/-- Reset of the four geometry dicts done by `__checkPdbConstraints` before parsing. -/
def clearGeom (st : PdbFilterState) : PdbFilterState :=
  { st with proteinAtoms := [], proteinNs := [], residueAtoms := [], residueNs := [] }

/-- `__checkPdbConstraints(filepath)`: clear the geometry, parse, then test. -/
def checkPdbConstraints (st : PdbFilterState) (file : Option (List String)) :
    Except PdbFilterState Bool :=
  match parseCoordsFromPdb (clearGeom st) file with
  | .error e => .error e
  | .ok (st1, b) =>
    if b then
      match testConstraints st1 with
      | none => .error st1
      | some r => .ok r
    else .ok false

/-- C7 (amended): for a missing artifact file, geometry extraction raises — the
`open` failure is propagated (superseded in the `finally` clause by the
`close()` on the never-bound handle), it does not return silently — and at the
raise the four coordinate maps (freshly cleared by `__checkPdbConstraints`)
are all empty. -/
theorem missing_artifact_raises (st : PdbFilterState) :
    checkPdbConstraints st none = .error (clearGeom st) ∧
    parseCoordsFromPdb (clearGeom st) none = .error (clearGeom st) ∧
    (clearGeom st).proteinAtoms = [] ∧ (clearGeom st).proteinNs = [] ∧
    (clearGeom st).residueAtoms = [] ∧ (clearGeom st).residueNs = [] :=
  ⟨rfl, rfl, rfl, rfl, rfl, rfl⟩

/-- C7 counterexample: with a registered constraint and a missing file the call
raises (an `error` outcome), instead of returning `False`/empty maps without
an exception as the claim states. -/
theorem missing_artifact_raises_cex :
    checkPdbConstraints
      ⟨[("B", [("PHE1T", 2)])], [("T", ["PHE1"])], [], [], [], []⟩ none =
      Except.error (clearGeom ⟨[("B", [("PHE1T", 2)])], [("T", ["PHE1"])], [], [], [], []⟩) ∧
    (∀ b : Bool,
      checkPdbConstraints
        ⟨[("B", [("PHE1T", 2)])], [("T", ["PHE1"])], [], [], [], []⟩ none ≠ Except.ok b) :=
  ⟨rfl, fun _ h => Except.noConfusion h⟩

theorem findSatisfyingRes_true (st : PdbFilterState) (ch : String) (thr d : ℚ)
    (resN : Coord) (rAtoms : List Coord) (paf : String → List Coord) :
    ∀ (chNs : List (String × Coord)),
    (∀ r ∈ chNs, (alookup st.proteinAtoms ch).bind (fun m => alookup m r.1) = some (paf r.1)) →
    0 ≤ d → d ≤ thr →
    (∃ r ∈ chNs, precheckNear resN r.2 (max 20 (thr + 10)) = true ∧
        ∃ c1 ∈ rAtoms, ∃ c2 ∈ paf r.1, sqDist c1 c2 = d ^ 2) →
    findSatisfyingRes st ch thr (max 20 (thr + 10)) resN rAtoms chNs = some true := by
  intro chNs
  induction chNs with
  | nil => intro _ _ _ hwit; simp at hwit
  | cons hd rest ih =>
    intro hpa hd0 hdthr hwit
    have hthr0 : 0 ≤ thr := le_trans hd0 hdthr
    have hsq : d ^ 2 ≤ thr ^ 2 := by
      have := pow_le_pow_left hd0 hdthr 2
      exact this
    rcases hwit with ⟨r, hrmem, hpre, c1, hc1, c2, hc2, hsqd⟩
    rcases List.mem_cons.mp hrmem with hr | hr
    · subst hr
      rw [findSatisfyingRes, if_pos hpre]
      simp only [hpa r (List.mem_cons_self _ _)]
      have hchk : checkAtomDistances thr rAtoms (paf r.1) = true := by
        unfold checkAtomDistances
        rw [List.any_eq_true]
        refine ⟨c1, hc1, ?_⟩
        rw [List.any_eq_true]
        refine ⟨c2, hc2, ?_⟩
        unfold sqrtLe
        exact decide_eq_true ⟨hthr0, by rw [hsqd]; exact hsq⟩
      rw [if_pos hchk]
    · rw [findSatisfyingRes]
      by_cases hpre' : precheckNear resN hd.2 (max 20 (thr + 10)) = true
      · rw [if_pos hpre']
        simp only [hpa hd (List.mem_cons_self _ _)]
        by_cases hchk : checkAtomDistances thr rAtoms (paf hd.1) = true
        · rw [if_pos hchk]
        · rw [if_neg hchk]
          exact ih (fun r' hr' => hpa r' (List.mem_cons_of_mem _ hr')) hd0 hdthr
            ⟨r, hr, hpre, c1, hc1, c2, hc2, hsqd⟩
      · rw [if_neg hpre']
        exact ih (fun r' hr' => hpa r' (List.mem_cons_of_mem _ hr')) hd0 hdthr
          ⟨r, hr, hpre, c1, hc1, c2, hc2, hsqd⟩

theorem findSatisfyingRes_false (st : PdbFilterState) (ch : String) (thr d near : ℚ)
    (resN : Coord) (rAtoms : List Coord) (paf : String → List Coord) :
    ∀ (chNs : List (String × Coord)),
    (∀ r ∈ chNs, (alookup st.proteinAtoms ch).bind (fun m => alookup m r.1) = some (paf r.1)) →
    0 ≤ d → thr < d →
    (∀ r ∈ chNs, ∀ c1 ∈ rAtoms, ∀ c2 ∈ paf r.1, d ^ 2 ≤ sqDist c1 c2) →
    findSatisfyingRes st ch thr near resN rAtoms chNs = some false := by
  intro chNs
  induction chNs with
  | nil => intro _ _ _ _; rfl
  | cons hd rest ih =>
    intro hpa hd0 hthr hmin
    rw [findSatisfyingRes]
    have hrec := ih (fun r' hr' => hpa r' (List.mem_cons_of_mem _ hr')) hd0 hthr
      (fun r' hr' => hmin r' (List.mem_cons_of_mem _ hr'))
    by_cases hpre : precheckNear resN hd.2 near = true
    · rw [if_pos hpre]
      simp only [hpa hd (List.mem_cons_self _ _)]
      have hchk : checkAtomDistances thr rAtoms (paf hd.1) = false := by
        unfold checkAtomDistances
        rw [List.any_eq_false]
        intro c1 hc1
        rw [Bool.not_eq_true, List.any_eq_false]
        intro c2 hc2
        unfold sqrtLe
        simp only [decide_eq_true_eq, not_and]
        intro hthr0
        have hlt : thr ^ 2 < d ^ 2 := by
          have := pow_lt_pow_left hthr hthr0 (two_ne_zero)
          exact this
        have hge := hmin hd (List.mem_cons_self _ _) c1 hc1 c2 hc2
        intro hle
        exact absurd (lt_of_lt_of_le hlt hge) (not_lt.mpr hle)
      rw [if_neg (by rw [hchk]; exact Bool.false_ne_true)]
      exact hrec
    · rw [if_neg hpre]
      exact hrec

theorem testOneConstraint_eq (st : PdbFilterState) (ch res : String) (thr d : ℚ)
    (resN : Coord) (rAtoms : List Coord) (chNs : List (String × Coord))
    (paf : String → List Coord)
    (hrn : alookup st.residueNs res = some resN)
    (hra : alookup st.residueAtoms res = some rAtoms)
    (hpn : alookup st.proteinNs ch = some chNs)
    (hpa : ∀ r ∈ chNs, (alookup st.proteinAtoms ch).bind (fun m => alookup m r.1) = some (paf r.1))
    (hd0 : 0 ≤ d)
    (hmin : ∀ r ∈ chNs, ∀ c1 ∈ rAtoms, ∀ c2 ∈ paf r.1, d ^ 2 ≤ sqDist c1 c2)
    (hwit : d ≤ thr →
      ∃ r ∈ chNs, precheckNear resN r.2 (max 20 (thr + 10)) = true ∧
        ∃ c1 ∈ rAtoms, ∃ c2 ∈ paf r.1, sqDist c1 c2 = d ^ 2) :
    testOneConstraint st ch res thr = some (decide (d ≤ thr)) := by
  unfold testOneConstraint
  rw [hrn, hra, hpn]
  by_cases hdthr : d ≤ thr
  · rw [decide_eq_true hdthr]
    exact findSatisfyingRes_true st ch thr d resN rAtoms paf chNs hpa hd0 hdthr (hwit hdthr)
  · rw [decide_eq_false hdthr]
    exact findSatisfyingRes_false st ch thr d _ resN rAtoms paf chNs hpa hd0
      (not_le.mp hdthr) hmin

theorem testChainConstraints_eq (st : PdbFilterState) (ch : String)
    (dOf : String → String → ℚ) (rNf : String → Coord) (rAf : String → List Coord)
    (chNs : List (String × Coord)) (paf : String → List Coord) :
    ∀ (l : List (String × ℚ)),
    (∀ q ∈ l, alookup st.residueNs q.1 = some (rNf q.1)) →
    (∀ q ∈ l, alookup st.residueAtoms q.1 = some (rAf q.1)) →
    alookup st.proteinNs ch = some chNs →
    (∀ r ∈ chNs, (alookup st.proteinAtoms ch).bind (fun m => alookup m r.1) = some (paf r.1)) →
    (∀ q ∈ l, 0 ≤ dOf ch q.1) →
    (∀ q ∈ l, ∀ r ∈ chNs, ∀ c1 ∈ rAf q.1, ∀ c2 ∈ paf r.1,
      (dOf ch q.1) ^ 2 ≤ sqDist c1 c2) →
    (∀ q ∈ l, dOf ch q.1 ≤ q.2 →
      ∃ r ∈ chNs, precheckNear (rNf q.1) r.2 (max 20 (q.2 + 10)) = true ∧
        ∃ c1 ∈ rAf q.1, ∃ c2 ∈ paf r.1, sqDist c1 c2 = (dOf ch q.1) ^ 2) →
    testChainConstraints st ch l = some (l.all fun q => decide (dOf ch q.1 ≤ q.2)) := by
  intro l
  induction l with
  | nil => intro _ _ _ _ _ _ _; rfl
  | cons q rest ih =>
    intro hrn hra hpn hpa hd0 hmin hwit
    have hone : testOneConstraint st ch q.1 q.2 = some (decide (dOf ch q.1 ≤ q.2)) :=
      testOneConstraint_eq st ch q.1 q.2 (dOf ch q.1) (rNf q.1) (rAf q.1) chNs paf
        (hrn q (List.mem_cons_self _ _)) (hra q (List.mem_cons_self _ _)) hpn hpa
        (hd0 q (List.mem_cons_self _ _))
        (hmin q (List.mem_cons_self _ _)) (hwit q (List.mem_cons_self _ _))
    have hrest := ih (fun q' hq' => hrn q' (List.mem_cons_of_mem _ hq'))
      (fun q' hq' => hra q' (List.mem_cons_of_mem _ hq')) hpn hpa
      (fun q' hq' => hd0 q' (List.mem_cons_of_mem _ hq'))
      (fun q' hq' => hmin q' (List.mem_cons_of_mem _ hq'))
      (fun q' hq' => hwit q' (List.mem_cons_of_mem _ hq'))
    cases q with
    | mk res thr =>
      rw [testChainConstraints, hone]
      by_cases hdec : dOf ch res ≤ thr
      · rw [decide_eq_true hdec]
        rw [hrest]
        simp [List.all_cons, decide_eq_true hdec]
      · rw [decide_eq_false hdec]
        simp [List.all_cons, decide_eq_false hdec]

theorem testAllConstraints_eq (st : PdbFilterState)
    (dOf : String → String → ℚ) (rNf : String → Coord) (rAf : String → List Coord)
    (chNf : String → List (String × Coord)) (paf : String → String → List Coord) :
    ∀ (dc : List (String × List (String × ℚ))),
    (∀ p ∈ dc, ∀ q ∈ p.2, alookup st.residueNs q.1 = some (rNf q.1)) →
    (∀ p ∈ dc, ∀ q ∈ p.2, alookup st.residueAtoms q.1 = some (rAf q.1)) →
    (∀ p ∈ dc, alookup st.proteinNs p.1 = some (chNf p.1)) →
    (∀ p ∈ dc, ∀ r ∈ chNf p.1,
      (alookup st.proteinAtoms p.1).bind (fun m => alookup m r.1) = some (paf p.1 r.1)) →
    (∀ p ∈ dc, ∀ q ∈ p.2, 0 ≤ dOf p.1 q.1) →
    (∀ p ∈ dc, ∀ q ∈ p.2, ∀ r ∈ chNf p.1, ∀ c1 ∈ rAf q.1, ∀ c2 ∈ paf p.1 r.1,
      (dOf p.1 q.1) ^ 2 ≤ sqDist c1 c2) →
    (∀ p ∈ dc, ∀ q ∈ p.2, dOf p.1 q.1 ≤ q.2 →
      ∃ r ∈ chNf p.1, precheckNear (rNf q.1) r.2 (max 20 (q.2 + 10)) = true ∧
        ∃ c1 ∈ rAf q.1, ∃ c2 ∈ paf p.1 r.1, sqDist c1 c2 = (dOf p.1 q.1) ^ 2) →
    testAllConstraints st dc =
      some (dc.all fun p => p.2.all fun q => decide (dOf p.1 q.1 ≤ q.2)) := by
  intro dc
  induction dc with
  | nil => intro _ _ _ _ _ _ _; rfl
  | cons p rest ih =>
    intro hrn hra hpn hpa hd0 hmin hwit
    have hchain : testChainConstraints st p.1 p.2 =
        some (p.2.all fun q => decide (dOf p.1 q.1 ≤ q.2)) :=
      testChainConstraints_eq st p.1 dOf rNf rAf (chNf p.1) (paf p.1) p.2
        (hrn p (List.mem_cons_self _ _)) (hra p (List.mem_cons_self _ _))
        (hpn p (List.mem_cons_self _ _)) (hpa p (List.mem_cons_self _ _))
        (hd0 p (List.mem_cons_self _ _)) (hmin p (List.mem_cons_self _ _))
        (hwit p (List.mem_cons_self _ _))
    have hrest := ih (fun p' hp' => hrn p' (List.mem_cons_of_mem _ hp'))
      (fun p' hp' => hra p' (List.mem_cons_of_mem _ hp'))
      (fun p' hp' => hpn p' (List.mem_cons_of_mem _ hp'))
      (fun p' hp' => hpa p' (List.mem_cons_of_mem _ hp'))
      (fun p' hp' => hd0 p' (List.mem_cons_of_mem _ hp'))
      (fun p' hp' => hmin p' (List.mem_cons_of_mem _ hp'))
      (fun p' hp' => hwit p' (List.mem_cons_of_mem _ hp'))
    cases p with
    | mk ch l =>
      rw [testAllConstraints, hchain]
      by_cases hall : (l.all fun q => decide (dOf ch q.1 ≤ q.2)) = true
      · rw [hall, hrest]
        simp [List.all_cons, hall]
      · rw [Bool.eq_false_iff.mpr hall]
        simp [List.all_cons, Bool.eq_false_iff.mpr hall]

/-- C3 (amended): for a geometry in which, for each registered constraint
`(res, thr)` against chain `ch`, every atom pair between `res` and the chain's
candidate residues is at squared distance at least `d²` (with `d = dOf ch res ≥ 0`),
and — whenever `d ≤ thr` — some candidate residue *passing the per-axis backbone
pre-check with `nearDistance = max(20, thr + 10)`* attains a pair at squared
distance exactly `d²`, the constraint check accepts exactly the constraints with
`thr ≥ d`, and the artifact is accepted iff every registered constraint is
satisfied (logical AND).  The pre-check proviso is necessary: the bare claim
fails because the pre-check can exclude a residue whose atoms are within the
threshold (see the counterexample). -/
theorem testConstraints_threshold (st : PdbFilterState)
    (dOf : String → String → ℚ) (rNf : String → Coord) (rAf : String → List Coord)
    (chNf : String → List (String × Coord)) (paf : String → String → List Coord)
    (hrn : ∀ p ∈ st.distConstraints, ∀ q ∈ p.2, alookup st.residueNs q.1 = some (rNf q.1))
    (hra : ∀ p ∈ st.distConstraints, ∀ q ∈ p.2, alookup st.residueAtoms q.1 = some (rAf q.1))
    (hpn : ∀ p ∈ st.distConstraints, alookup st.proteinNs p.1 = some (chNf p.1))
    (hpa : ∀ p ∈ st.distConstraints, ∀ r ∈ chNf p.1,
      (alookup st.proteinAtoms p.1).bind (fun m => alookup m r.1) = some (paf p.1 r.1))
    (hd0 : ∀ p ∈ st.distConstraints, ∀ q ∈ p.2, 0 ≤ dOf p.1 q.1)
    (hmin : ∀ p ∈ st.distConstraints, ∀ q ∈ p.2, ∀ r ∈ chNf p.1,
      ∀ c1 ∈ rAf q.1, ∀ c2 ∈ paf p.1 r.1, (dOf p.1 q.1) ^ 2 ≤ sqDist c1 c2)
    (hwit : ∀ p ∈ st.distConstraints, ∀ q ∈ p.2, dOf p.1 q.1 ≤ q.2 →
      ∃ r ∈ chNf p.1, precheckNear (rNf q.1) r.2 (max 20 (q.2 + 10)) = true ∧
        ∃ c1 ∈ rAf q.1, ∃ c2 ∈ paf p.1 r.1, sqDist c1 c2 = (dOf p.1 q.1) ^ 2) :
    testConstraints st =
      some (st.distConstraints.all fun p => p.2.all fun q => decide (dOf p.1 q.1 ≤ q.2)) :=
  testAllConstraints_eq st dOf rNf rAf chNf paf st.distConstraints
    hrn hra hpn hpa hd0 hmin hwit

/-- Witness for C3's amended statement: one constraint `PHE1T` within `2` of
chain `B`; the single candidate's backbone passes the pre-check and one atom
pair sits at distance exactly `1 ≤ 2`, so the artifact is accepted. -/
theorem testConstraints_threshold_witness :
    testConstraints
      ⟨[("B", [("PHE1T", 2)])], [("T", ["PHE1"])],
        [("B", [("LYS1", [(1, 0, 0)])])], [("B", [("LYS1", (5, 0, 0))])],
        [("PHE1T", [(0, 0, 0), (100, 0, 0)])], [("PHE1T", (0, 0, 0))]⟩ =
      some ([("B", [(("PHE1T" : String), (2 : ℚ))])].all fun p =>
        p.2.all fun q => decide ((1 : ℚ) ≤ q.2)) :=
  testConstraints_threshold
    ⟨[("B", [("PHE1T", 2)])], [("T", ["PHE1"])],
      [("B", [("LYS1", [(1, 0, 0)])])], [("B", [("LYS1", (5, 0, 0))])],
      [("PHE1T", [(0, 0, 0), (100, 0, 0)])], [("PHE1T", (0, 0, 0))]⟩
    (fun _ _ => 1) (fun _ => (0, 0, 0)) (fun _ => [(0, 0, 0), (100, 0, 0)])
    (fun _ => [("LYS1", (5, 0, 0))]) (fun _ _ => [(1, 0, 0)])
    (by decide) (by decide) (by decide) (by decide) (by decide) (by decide) (by decide)

/-- C3 counterexample: the candidate residue has an atom at distance exactly 1
from an atom of the constrained residue and the threshold is 2 ≥ 1, yet the
artifact is rejected — the per-axis backbone pre-check (`nearDistance = 20`)
excludes the candidate because its backbone reference is 200 away, so the
pre-check *does* exclude residues that would satisfy the exact check. -/
theorem testConstraints_precheck_excludes_cex :
    testConstraints
      ⟨[("B", [("PHE1T", 2)])], [("T", ["PHE1"])],
        [("B", [("LYS1", [(101, 0, 0)])])], [("B", [("LYS1", (200, 0, 0))])],
        [("PHE1T", [(0, 0, 0), (100, 0, 0)])], [("PHE1T", (0, 0, 0))]⟩ = some false ∧
    sqDist (100, 0, 0) (101, 0, 0) = 1 ^ 2 ∧ ((1 : ℚ) ≤ 2) ∧ ((0 : ℚ) ≤ 1) := by
  refine ⟨by decide, by decide, by decide, by decide⟩

/-! ## The ledger/filesystem bijection (claim C1)

The orchestration layer (`PdbFilter.parseDecoys`, `ScoresDict.orderAndTrimDecoys`,
`renameFiles`, `swapFiles`) always pairs a ledger mutation with the matching
filesystem delete/rename.  The on-disk artifact set is embedded as a
`Finset String`; the paired operations and an inductive step relation mirror
the four call sites. -/

/-- A ledger key matching the `'_deleted_'` pattern (as produced by
`markDeleted`'s `'%s_deleted_%04d.pdb'` template). -/
def isDeletedName (s : String) : Bool := hasPatL "_deleted_".data s.data

/-- The ledger's key list. -/
def ledgerKeys (sd : ScoresDict) : List String := akeys sd.records

/-- The non-`'_deleted_'` ledger keys, as a set. -/
def liveKeys (sd : ScoresDict) : Finset String :=
  ((ledgerKeys sd).filter (fun n => !(isDeletedName n))).toFinset

/-- Well-formedness a loaded ledger always has: unique keys, and the records
dict and the lines dict keyed identically. -/
def sdWf (sd : ScoresDict) : Prop :=
  (ledgerKeys sd).Nodup ∧ sd.records.map Prod.fst = sd.lines.map Prod.fst

/-- Orchestrator state: the ledger plus the set of artifact files on disk. -/
structure LedgerFS where
  sd : ScoresDict
  disk : Finset String
  deriving DecidableEq

/-- The central invariant: the ledger is well-formed and its non-deleted keys
are exactly the artifacts on disk (so every artifact has exactly one record). -/
def ledgerInv (s : LedgerFS) : Prop := sdWf s.sd ∧ liveKeys s.sd = s.disk

instance (s : LedgerFS) : Decidable (ledgerInv s) := by
  unfold ledgerInv sdWf
  infer_instance

/-- `os.remove` + `ScoresDict.remove` as paired in `PdbFilter.parseDecoys`. -/
def pairedRemove (s : LedgerFS) (name : String) : LedgerFS :=
  ⟨s.sd.remove name, s.disk.erase name⟩

/-- `os.remove` + `markDeleted` as paired in `ScoresDict.orderAndTrimDecoys`. -/
def pairedTrim (s : LedgerFS) (name : String) (basename : Option String) : Option LedgerFS :=
  (s.sd.markDeleted name basename).map (fun sd' => ⟨sd', s.disk.erase name⟩)

/-- `ScoresDict.renameFiles`: ledger rename plus `os.rename` (no-op on equal names). -/
def pairedRename (s : LedgerFS) (old new : String) : Option LedgerFS :=
  if old = new then some s
  else (s.sd.rename old new).map (fun sd' => ⟨sd', insert new (s.disk.erase old)⟩)

/-- `ScoresDict.swapFiles`: three paired renames through `a+'.temp'`. -/
def pairedSwap (s : LedgerFS) (a b : String) : Option LedgerFS :=
  if a = b then some s
  else
    match pairedRename s a (a ++ ".temp") with
    | none => none
    | some s1 =>
      match pairedRename s1 b a with
      | none => none
      | some s2 => pairedRename s2 (a ++ ".temp") b

/-- One orchestration-layer operation, with the preconditions the call sites
guarantee: deleted/renamed sources are files found on disk (`os.listdir` /
the surviving order), and rename targets are canonical `base_%04d.pdb` names
or `.temp` names derived from them, never `'_deleted_'`-pattern names. -/
inductive OrchStep : LedgerFS → LedgerFS → Prop
  | remove (s : LedgerFS) (name : String) (hd : name ∈ s.disk) :
      OrchStep s (pairedRemove s name)
  | trim (s : LedgerFS) (name : String) (b : Option String) (s' : LedgerFS)
      (hd : name ∈ s.disk) (h : pairedTrim s name b = some s') : OrchStep s s'
  | rename (s : LedgerFS) (old new : String) (s' : LedgerFS)
      (hd : old ∈ s.disk) (hdel : isDeletedName new = false)
      (h : pairedRename s old new = some s') : OrchStep s s'
  | swap (s : LedgerFS) (a b : String) (s' : LedgerFS)
      (ha : a ∈ s.disk) (hb : b ∈ s.disk)
      (h : pairedSwap s a b = some s') : OrchStep s s'

theorem alookup_isSome_iff_mem {α : Type} (l : List (String × α)) (k : String) :
    (alookup l k).isSome = true ↔ k ∈ l.map Prod.fst := by
  induction l with
  | nil => simp [alookup]
  | cons p ps ih =>
    by_cases hp : p.1 = k
    · simp [alookup, hp]
    · simp only [alookup, if_neg hp, List.map_cons, List.mem_cons]
      rw [ih]
      constructor
      · intro h; exact Or.inr h
      · intro h
        rcases h with h | h
        · exact absurd h.symm hp
        · exact h

theorem mem_ledgerKeys_iff (sd : ScoresDict) (x : String) :
    x ∈ ledgerKeys sd ↔ (alookup sd.records x).isSome = true :=
  (alookup_isSome_iff_mem sd.records x).symm

theorem mem_liveKeys (sd : ScoresDict) (x : String) :
    x ∈ liveKeys sd ↔ x ∈ ledgerKeys sd ∧ isDeletedName x = false := by
  unfold liveKeys
  rw [List.mem_toFinset, List.mem_filter]
  simp [Bool.not_eq_true']

theorem map_fst_aerase {α : Type} (l : List (String × α)) (k : String) :
    (aerase l k).map Prod.fst = (l.map Prod.fst).filter (fun x => x ≠ k) := by
  induction l with
  | nil => rfl
  | cons p ps ih =>
    by_cases hp : p.1 = k
    · simp [aerase, hp, ih, List.filter_cons]
    · simp [aerase, hp, ih, List.filter_cons]

theorem map_fst_update {α : Type} (l : List (String × α)) (k : String) (v : α) :
    (l.map (fun p => if p.1 = k then (k, v) else p)).map Prod.fst = l.map Prod.fst := by
  induction l with
  | nil => rfl
  | cons p ps ih =>
    simp only [List.map_cons, ih]
    congr 1
    by_cases hp : p.1 = k
    · rw [if_pos hp, hp]
    · rw [if_neg hp]

theorem map_fst_ainsert {α : Type} (l : List (String × α)) (k : String) (v : α) :
    (ainsert l k v).map Prod.fst =
      if (alookup l k).isSome then l.map Prod.fst else l.map Prod.fst ++ [k] := by
  unfold ainsert
  by_cases h : (alookup l k).isSome = true
  · rw [if_pos h, if_pos h]
    exact map_fst_update l k v
  · rw [if_neg h, if_neg h]
    simp

theorem nodup_append_singleton {α : Type} (l : List α) (k : α) (h1 : l.Nodup)
    (h2 : k ∉ l) : (l ++ [k]).Nodup := by
  simp [List.nodup_append, h1, h2]

theorem rename_wf (sd : ScoresDict) (old new : String) (sd' : ScoresDict)
    (h : sd.rename old new = some sd') (hwf : sdWf sd) : sdWf sd' := by
  unfold ScoresDict.rename at h
  by_cases hne : old = new
  · rw [if_pos hne] at h
    injection h with h
    rw [← h]
    exact hwf
  · rw [if_neg hne] at h
    cases hl : alookup sd.lines old with
    | none => rw [hl] at h; cases hr : alookup sd.records old <;> rw [hr] at h <;> cases h
    | some lo =>
      rw [hl] at h
      cases hr : alookup sd.records old with
      | none => rw [hr] at h; cases h
      | some ro =>
        rw [hr] at h
        injection h with h
        have hkeq : (aerase sd.records old).map Prod.fst = (aerase sd.lines old).map Prod.fst := by
          rw [map_fst_aerase, map_fst_aerase, hwf.2]
        have hcond : (alookup (aerase sd.records old) new).isSome =
            (alookup (aerase sd.lines old) new).isSome := by
          by_cases hc : (alookup (aerase sd.records old) new).isSome = true
          · rw [hc]
            exact ((alookup_isSome_iff_mem _ _).mpr
              (hkeq ▸ (alookup_isSome_iff_mem _ _).mp hc)).symm
          · have hc2 : ¬ (alookup (aerase sd.lines old) new).isSome = true := by
              intro hc2
              exact hc ((alookup_isSome_iff_mem _ _).mpr
                (hkeq ▸ (alookup_isSome_iff_mem _ _).mp hc2))
            rw [Bool.eq_false_iff.mpr hc, Bool.eq_false_iff.mpr hc2]
        have hrecords : sd'.records = ainsert (aerase sd.records old) new ro := by
          rw [← h]
        have hlines : sd'.lines = ainsert (aerase sd.lines old) new (lineRewrite lo new) := by
          rw [← h]
        constructor
        · unfold ledgerKeys akeys
          rw [hrecords, map_fst_ainsert]
          by_cases hc : (alookup (aerase sd.records old) new).isSome = true
          · rw [if_pos hc, map_fst_aerase]
            exact hwf.1.filter _
          · rw [if_neg hc]
            refine nodup_append_singleton _ _ (by rw [map_fst_aerase]; exact hwf.1.filter _) ?_
            intro hmem
            exact hc ((alookup_isSome_iff_mem _ _).mpr hmem)
        · rw [hrecords, hlines, map_fst_ainsert, map_fst_ainsert, hcond, hkeq]

theorem remove_wf (sd : ScoresDict) (name : String) (hwf : sdWf sd) :
    sdWf (sd.remove name) := by
  unfold ScoresDict.remove
  by_cases hc : (alookup sd.records name).isSome = true
  · rw [if_pos hc]
    constructor
    · unfold ledgerKeys akeys
      rw [map_fst_aerase]
      exact hwf.1.filter _
    · rw [map_fst_aerase, map_fst_aerase, hwf.2]
  · rw [if_neg hc]
    exact hwf

theorem rename_lookup (sd : ScoresDict) (old new : String) (sd' : ScoresDict)
    (hne : old ≠ new) (h : sd.rename old new = some sd') :
    ∃ lo ro, alookup sd.lines old = some lo ∧ alookup sd.records old = some ro ∧
      (∀ k, alookup sd'.records k =
        if k = new then some ro else if k = old then none else alookup sd.records k) ∧
      (∀ k, alookup sd'.lines k =
        if k = new then some (lineRewrite lo new)
        else if k = old then none else alookup sd.lines k) := by
  have hcopy := h
  unfold ScoresDict.rename at hcopy
  rw [if_neg hne] at hcopy
  cases hl : alookup sd.lines old with
  | none => rw [hl] at hcopy; cases hr : alookup sd.records old <;> rw [hr] at hcopy <;> cases hcopy
  | some lo =>
    rw [hl] at hcopy
    cases hr : alookup sd.records old with
    | none => rw [hr] at hcopy; cases hcopy
    | some ro =>
      rw [hr] at hcopy
      obtain ⟨s'', hs'', hrec, hlin, -, -, -⟩ := rename_spec sd old new lo ro hne hl hr
      rw [h] at hs''
      injection hs'' with hs''
      exact ⟨lo, ro, rfl, rfl, by rw [hs'']; exact hrec, by rw [hs'']; exact hlin⟩

theorem startsWithL_self_append (pat rest : List Char) :
    startsWithL pat (pat ++ rest) = true := by
  induction pat with
  | nil => rfl
  | cons p ps ih => simp [startsWithL, ih]

theorem hasPatL_of_append (pat u v : List Char) : hasPatL pat (u ++ (pat ++ v)) = true := by
  induction u with
  | nil =>
    rw [List.nil_append]
    cases hc : pat ++ v with
    | nil =>
      have hp : pat = [] := by
        cases pat with
        | nil => rfl
        | cons a l => simp at hc
      rw [hp]
      rfl
    | cons c cs =>
      rw [hasPatL, ← hc, startsWithL_self_append]
      simp
  | cons x u' ih =>
    rw [List.cons_append, hasPatL, ih]
    simp

theorem isDeletedName_deletedNameOf (b : String) (i : Nat) :
    isDeletedName (ScoresDict.deletedNameOf b i) = true := by
  unfold isDeletedName ScoresDict.deletedNameOf
  rw [show (b ++ "_deleted_" ++ pad4 i ++ ".pdb").data =
      b.data ++ ("_deleted_".data ++ ((pad4 i).data ++ ".pdb".data)) by
    simp [String.data_append]]
  exact hasPatL_of_append _ _ _

theorem pairedRename_char (s : LedgerFS) (old new : String) (s' : LedgerFS)
    (hne : old ≠ new) (h : pairedRename s old new = some s') (hwf : sdWf s.sd) :
    sdWf s'.sd ∧
    (∀ x, x ∈ ledgerKeys s'.sd ↔ (x = new ∨ (x ∈ ledgerKeys s.sd ∧ x ≠ old))) ∧
    (∀ x, x ∈ s'.disk ↔ (x = new ∨ (x ∈ s.disk ∧ x ≠ old))) := by
  unfold pairedRename at h
  rw [if_neg hne] at h
  cases hr : s.sd.rename old new with
  | none => rw [hr] at h; cases h
  | some sd' =>
    rw [hr] at h
    injection h with h
    obtain ⟨lo, ro, -, -, hrec, -⟩ := rename_lookup s.sd old new sd' hne hr
    refine ⟨?_, ?_, ?_⟩
    · rw [← h]
      exact rename_wf s.sd old new sd' hr hwf
    · intro x
      rw [← h]
      rw [mem_ledgerKeys_iff, mem_ledgerKeys_iff]
      simp only
      rw [hrec x]
      by_cases hx1 : x = new
      · simp [hx1]
      · rw [if_neg hx1]
        by_cases hx2 : x = old
        · simp [hx1, hx2, hne]
        · simp [hx1, hx2]
    · intro x
      rw [← h]
      simp only
      rw [Finset.mem_insert, Finset.mem_erase]
      constructor
      · intro hx
        rcases hx with hx | hx
        · exact Or.inl hx
        · exact Or.inr ⟨hx.2, hx.1⟩
      · intro hx
        rcases hx with hx | hx
        · exact Or.inl hx
        · exact Or.inr ⟨hx.2, hx.1⟩

theorem isDeletedName_false_of_disk (s : LedgerFS) (x : String)
    (hinv : ledgerInv s) (hx : x ∈ s.disk) :
    isDeletedName x = false ∧ x ∈ ledgerKeys s.sd := by
  have hlive : x ∈ liveKeys s.sd := by rw [hinv.2]; exact hx
  have := (mem_liveKeys _ _).mp hlive
  exact ⟨this.2, this.1⟩

theorem inv_remove (s : LedgerFS) (name : String) (hd : name ∈ s.disk)
    (hinv : ledgerInv s) : ledgerInv (pairedRemove s name) := by
  obtain ⟨hdel, hkeys⟩ := isDeletedName_false_of_disk s name hinv hd
  have hsome : (alookup s.sd.records name).isSome = true := (mem_ledgerKeys_iff _ _).mp hkeys
  obtain ⟨hwf, hset⟩ := hinv
  have hbranch : s.sd.remove name =
      { s.sd with records := aerase s.sd.records name, lines := aerase s.sd.lines name } := by
    unfold ScoresDict.remove
    rw [if_pos hsome]
  constructor
  · show sdWf (s.sd.remove name)
    exact remove_wf s.sd name hwf
  · show liveKeys (s.sd.remove name) = s.disk.erase name
    rw [hbranch]
    ext x
    rw [mem_liveKeys, mem_ledgerKeys_iff, Finset.mem_erase]
    simp only
    by_cases hx : x = name
    · subst hx
      rw [alookup_aerase_self]
      simp
    · rw [alookup_aerase_ne _ _ _ hx]
      rw [← mem_ledgerKeys_iff, ← mem_liveKeys, hset]
      simp [hx]

theorem inv_rename (s : LedgerFS) (old new : String) (s' : LedgerFS)
    (hd : old ∈ s.disk) (hdel : isDeletedName new = false)
    (h : pairedRename s old new = some s') (hinv : ledgerInv s) : ledgerInv s' := by
  by_cases hne : old = new
  · unfold pairedRename at h
    rw [if_pos hne] at h
    injection h with h
    rw [← h]
    exact hinv
  · obtain ⟨hwf', hkey, hdisk⟩ := pairedRename_char s old new s' hne h hinv.1
    obtain ⟨hdelold, -⟩ := isDeletedName_false_of_disk s old hinv hd
    refine ⟨hwf', ?_⟩
    ext x
    rw [mem_liveKeys, hkey x, hdisk x]
    by_cases hx1 : x = new
    · subst hx1
      simp [hdel]
    · by_cases hx2 : x = old
      · subst hx2
        simp [hx1, hdelold]
      · have : (x ∈ ledgerKeys s.sd ∧ isDeletedName x = false) ↔ x ∈ s.disk := by
          rw [← mem_liveKeys, hinv.2]
        simp only [hx1, false_or]
        constructor
        · intro hh
          exact ⟨this.mp ⟨hh.1.1, hh.2⟩, hx2⟩
        · intro hh
          have := this.mpr hh.1
          exact ⟨⟨this.1, hx2⟩, this.2⟩

theorem inv_trim (s : LedgerFS) (name : String) (b : Option String) (s' : LedgerFS)
    (hd : name ∈ s.disk) (h : pairedTrim s name b = some s')
    (hinv : ledgerInv s) : ledgerInv s' := by
  unfold pairedTrim at h
  rw [Option.map_eq_some'] at h
  obtain ⟨sd', hmd, hs'⟩ := h
  unfold ScoresDict.markDeleted at hmd
  cases hff : ScoresDict.firstFreeDeletedIndex s.sd (ScoresDict.markDeletedBase name b) with
  | none => rw [hff] at hmd; cases hmd
  | some i =>
    rw [hff] at hmd
    set bn := ScoresDict.markDeletedBase name b with hbn
    set dn := ScoresDict.deletedNameOf bn i with hdn
    have hdnfree : (alookup s.sd.records dn).isNone = true := by
      have := List.find?_some hff
      simpa using this
    have hdnnotkeys : dn ∉ ledgerKeys s.sd := by
      intro hmem
      rw [mem_ledgerKeys_iff] at hmem
      rw [Option.isNone_iff_eq_none] at hdnfree
      rw [hdnfree] at hmem
      cases hmem
    obtain ⟨hdelname, hnamekeys⟩ := isDeletedName_false_of_disk s name hinv hd
    have hne : name ≠ dn := fun hq => hdnnotkeys (hq ▸ hnamekeys)
    have hdnisdel : isDeletedName dn = true := isDeletedName_deletedNameOf bn i
    have hdnnotdisk : dn ∉ s.disk := by
      intro hmem
      have := (isDeletedName_false_of_disk s dn hinv hmem).1
      rw [hdnisdel] at this
      cases this
    obtain ⟨lo, ro, -, -, hrec, -⟩ := rename_lookup s.sd name dn sd' hne hmd
    have hwf' : sdWf sd' := rename_wf s.sd name dn sd' hmd hinv.1
    rw [← hs']
    refine ⟨hwf', ?_⟩
    show liveKeys sd' = s.disk.erase name
    ext x
    rw [mem_liveKeys, mem_ledgerKeys_iff, hrec x, Finset.mem_erase]
    by_cases hx1 : x = dn
    · rw [hx1]
      rw [if_pos rfl]
      constructor
      · intro hh
        rw [hdnisdel] at hh
        cases hh.2
      · intro hh
        exact absurd hh.2 hdnnotdisk
    · rw [if_neg hx1]
      by_cases hx2 : x = name
      · rw [hx2]
        rw [if_pos rfl]
        constructor
        · intro hh
          cases hh.1
        · intro hh
          exact absurd rfl hh.1
      · rw [if_neg hx2]
        rw [← mem_ledgerKeys_iff, ← mem_liveKeys, hinv.2]
        simp [hx2]

theorem inv_swap (s : LedgerFS) (a b : String) (s' : LedgerFS)
    (ha : a ∈ s.disk) (hb : b ∈ s.disk)
    (h : pairedSwap s a b = some s') (hinv : ledgerInv s) : ledgerInv s' := by
  by_cases hab : a = b
  · unfold pairedSwap at h
    rw [if_pos hab] at h
    injection h with h
    rw [← h]
    exact hinv
  · unfold pairedSwap at h
    rw [if_neg hab] at h
    set t := a ++ ".temp" with ht
    have hat : a ≠ t := ne_append_temp a
    obtain ⟨hdela, hakeys⟩ := isDeletedName_false_of_disk s a hinv ha
    obtain ⟨hdelb, hbkeys⟩ := isDeletedName_false_of_disk s b hinv hb
    have hbridge : ∀ y, (y ∈ ledgerKeys s.sd ∧ isDeletedName y = false) ↔ y ∈ s.disk :=
      fun y => by rw [← mem_liveKeys, hinv.2]
    cases h1 : pairedRename s a t with
    | none => simp only [h1] at h; cases h
    | some s1 =>
      simp only [h1] at h
      cases h2 : pairedRename s1 b a with
      | none => simp only [h2] at h; cases h
      | some s2 =>
        simp only [h2] at h
        obtain ⟨hwf1, hK1, hD1⟩ := pairedRename_char s a t s1 hat h1 hinv.1
        have hba : b ≠ a := fun hq => hab hq.symm
        obtain ⟨hwf2, hK2, hD2⟩ := pairedRename_char s1 b a s2 hba h2 hwf1
        by_cases htb : t = b
        · unfold pairedRename at h
          rw [if_pos htb] at h
          injection h with h
          rw [← h]
          refine ⟨hwf2, ?_⟩
          ext x
          rw [mem_liveKeys, hK2 x, hD2 x, hK1 x, hD1 x]
          by_cases hxa : x = a
          · rw [hxa]
            simp [hdela, hat]
          · by_cases hxb : x = b
            · rw [hxb]
              rw [← htb]
              have hta : ¬ t = a := fun hq => hat hq.symm
              simp [hta]
            · have hxt : ¬ x = t := htb ▸ hxb
              have hbx := hbridge x
              simp only [hxa, hxb, hxt, false_or, or_false]
              tauto
        · obtain ⟨hwf3, hK3, hD3⟩ := pairedRename_char s2 t b s' htb h hwf2
          refine ⟨hwf3, ?_⟩
          ext x
          rw [mem_liveKeys, hK3 x, hD3 x]
          by_cases hxb : x = b
          · rw [hxb]
            simp [hdelb]
          · by_cases hxt : x = t
            · rw [hxt]
              simp [htb]
            · rw [hK2 x, hD2 x]
              by_cases hxa : x = a
              · rw [hxa]
                simp [hxb, hat, hdela, fun hq : a = b => hab hq]
              · rw [hK1 x, hD1 x]
                have hbx := hbridge x
                simp only [hxa, hxb, hxt, false_or, or_false]
                tauto

/-- C1: along every sequence of orchestration-layer operations — paired
delete (`parseDecoys`), paired trim (`orderAndTrimDecoys`), paired rename
(`renameFiles` with a non-deleted target) and paired swap (`swapFiles`) — the
set of non-`'_deleted_'` ledger keys stays exactly the set of artifact files on
disk, and the ledger keeps one record per key: every artifact on disk has
exactly one Metrics Record and vice versa. -/
theorem ledger_bijection_preserved (s s' : LedgerFS)
    (hinv : ledgerInv s) (hsteps : Relation.ReflTransGen OrchStep s s') :
    ledgerInv s' := by
  induction hsteps with
  | refl => exact hinv
  | tail _ hstep ih =>
    cases hstep with
    | remove name hd => exact inv_remove _ name hd ih
    | trim name bn s2 hd h => exact inv_trim _ name bn _ hd h ih
    | rename old new s2 hd hdel h => exact inv_rename _ old new _ hd hdel h ih
    | swap a b s2 ha hb h => exact inv_swap _ a b _ ha hb h ih

/-- Witness for C1 on a concrete ledger: one live artifact and one
`_deleted_` record satisfy the invariant, and it still holds after the paired
delete of the live artifact. -/
theorem ledger_bijection_preserved_witness :
    ledgerInv ⟨ScoresDict.mk
        [("out_7.pdb", [("total_score", Value.num 1)]),
         ("out_deleted_0001.pdb", [("total_score", Value.num 9)])]
        [("out_7.pdb", "SCORE: 1.0 out_7.pdb"),
         ("out_deleted_0001.pdb", "SCORE: 9.0 out_deleted_0001.pdb")]
        "SCORE: total_score description" ["total_score"] (RankVal.metric "total_score"),
      {"out_7.pdb"}⟩ ∧
    ledgerInv (pairedRemove ⟨ScoresDict.mk
        [("out_7.pdb", [("total_score", Value.num 1)]),
         ("out_deleted_0001.pdb", [("total_score", Value.num 9)])]
        [("out_7.pdb", "SCORE: 1.0 out_7.pdb"),
         ("out_deleted_0001.pdb", "SCORE: 9.0 out_deleted_0001.pdb")]
        "SCORE: total_score description" ["total_score"] (RankVal.metric "total_score"),
      {"out_7.pdb"}⟩ "out_7.pdb") :=
  ⟨by decide, ledger_bijection_preserved _ _ (by decide)
    (Relation.ReflTransGen.single (OrchStep.remove _ "out_7.pdb" (by decide)))⟩


/-! ## Ranked renumbering (`util.py`, `ScoresDict.__reorderDecoys`)

The working directory's artifact files are embedded as an association list
from filename to an opaque content token.  `os.rename` silently overwrites an
existing destination and raises when the source path is missing;
`renameFiles` first performs the ledger rename (whose `lines.pop(old)` raises
`KeyError` exactly when `old` is not a ledger key, which under the C1
bijection coincides with the file being absent), so the paired operation is a
single fallible rename on the file side.  The bookkeeping list `l` holds
`none` where Python stores `False`. -/

/-- `ScoresDict.renameFiles` (file side): no-op on equal names, failure when
the source is missing, silent overwrite of an existing destination. -/
def fsRename (fs : List (String × Nat)) (old nw : String) : Option (List (String × Nat)) :=
  if old = nw then some fs
  else
    match alookup fs old with
    | none => none
    | some v => some (ainsert (aerase fs old) nw v)

/-- `ScoresDict.swapFiles`: three renames through `nameA + '.temp'`. -/
def fsSwap (fs : List (String × Nat)) (a b : String) : Option (List (String × Nat)) :=
  if a = b then some fs
  else
    match fsRename fs a (a ++ ".temp") with
    | none => none
    | some fs1 =>
      match fsRename fs1 b a with
      | none => none
      | some fs2 => fsRename fs2 (a ++ ".temp") b

/-- `'%s_%.4d.pdb' % (basename, i + 1)`: the canonical artifact name of rank `k`. -/
def canonicalName (base : String) (k : Nat) : String := base ++ "_" ++ pad4 k ++ ".pdb"

/-- `l.index(filename)` over the bookkeeping list; its success is exactly the
`filename in l` membership test (Python `False` entries never equal a string). -/
def optIndexOf (tgt : String) : List (Option String) → Option Nat
  | [] => none
  | e :: rest => if e = some tgt then some 0 else (optIndexOf tgt rest).map (fun j => j + 1)

/-- The loop of `__reorderDecoys` from index `i` on: clear `l[i]`, build the
canonical rank name, skip when already in place, swap with the slot currently
holding the canonical name when that name is still pending, else rename
directly.  The fuel counts the remaining iterations (`l` keeps its length), so
the recursion is structural.  A `False` (`none`) entry at the current index
would reach `os.path.join`/`lines.pop` with `False` and raise, hence `none`;
the loop in fact never produces that state. -/
def reorderFrom (base : String) :
    Nat → Nat → List (Option String) → List (String × Nat) → Option (List (String × Nat))
  | 0, _, _, fs => some fs
  | fuel + 1, i, l, fs =>
    match l[i]? with
    | none => some fs
    | some none => none
    | some (some old) =>
      let l1 := l.set i none
      let tgt := canonicalName base (i + 1)
      if old = tgt then reorderFrom base fuel (i + 1) l1 fs
      else
        match optIndexOf tgt l1 with
        | some j =>
          match fsSwap fs old tgt with
          | none => none
          | some fs1 => reorderFrom base fuel (i + 1) (l1.set j (some old)) fs1
        | none =>
          match fsRename fs old tgt with
          | none => none
          | some fs1 => reorderFrom base fuel (i + 1) l1 fs1

/-- `if not basename: basename = l[0].rpartition('_')[0]` — `None` and the
empty string are falsy, and `l[0]` raises `IndexError` on an empty order. -/
def reorderBase (newOrder : List String) (basename : Option String) : Option String :=
  match basename with
  | some b => if b = "" then (newOrder.head?).map (beforeLastChar '_') else some b
  | none => (newOrder.head?).map (beforeLastChar '_')

/-- `ScoresDict.__reorderDecoys(newOrder, basename)` on the file side (the
closing `saveScores()` rewrites the score file, never an artifact file). -/
def reorderDecoys (newOrder : List String) (basename : Option String)
    (fs : List (String × Nat)) : Option (List (String × Nat)) :=
  match reorderBase newOrder basename with
  | none => none
  | some base => reorderFrom base newOrder.length 0 (newOrder.map some) fs

/-! Positional helper lemmas for the bookkeeping list. -/

theorem get_set_self {α : Type} (l : List α) (i : Nat) (v : α) (h : i < l.length) :
    (l.set i v)[i]? = some v := by
  induction l generalizing i with
  | nil => simp at h
  | cons a as ih =>
    cases i with
    | zero => simp
    | succ n => simpa using ih n (by simpa using h)

theorem get_set_ne {α : Type} (l : List α) (i j : Nat) (v : α) (h : i ≠ j) :
    (l.set i v)[j]? = l[j]? := by
  induction l generalizing i j with
  | nil => rfl
  | cons a as ih =>
    cases i with
    | zero =>
      cases j with
      | zero => exact absurd rfl h
      | succ m => simp
    | succ n =>
      cases j with
      | zero => simp
      | succ m => simpa using ih n m (fun hq => h (by rw [hq]))

theorem get_map_some (names : List String) (j : Nat) :
    (names.map some)[j]? = (names[j]?).map some := by
  induction names generalizing j with
  | nil => rfl
  | cons a as ih =>
    cases j with
    | zero => simp
    | succ m => simpa using ih m

theorem get_some_lt {α : Type} (l : List α) (j : Nat) (x : α) (h : l[j]? = some x) :
    j < l.length := by
  induction l generalizing j with
  | nil => simp at h
  | cons a as ih =>
    cases j with
    | zero => simp
    | succ m =>
      have := ih m (by simpa using h)
      simpa using Nat.succ_lt_succ this

theorem get_of_lt {α : Type} (l : List α) (j : Nat) (h : j < l.length) :
    ∃ x, l[j]? = some x := by
  induction l generalizing j with
  | nil => simp at h
  | cons a as ih =>
    cases j with
    | zero => exact ⟨a, by simp⟩
    | succ m =>
      obtain ⟨x, hx⟩ := ih m (by simpa using h)
      exact ⟨x, by simpa using hx⟩

theorem mem_iff_exists_get {α : Type} (l : List α) (x : α) :
    x ∈ l ↔ ∃ j : Nat, l[j]? = some x := by
  induction l with
  | nil => simp
  | cons a as ih =>
    constructor
    · intro hx
      rcases List.mem_cons.mp hx with h | h
      · exact ⟨0, by simp [h]⟩
      · obtain ⟨j, hj⟩ := ih.mp h
        exact ⟨j + 1, by simpa using hj⟩
    · rintro ⟨j, hj⟩
      cases j with
      | zero =>
        simp only [List.getElem?_cons_zero, Option.some.injEq] at hj
        exact hj ▸ List.mem_cons_self a as
      | succ m =>
        exact List.mem_cons_of_mem a (ih.mpr ⟨m, by simpa using hj⟩)

theorem set_length {α : Type} (l : List α) (i : Nat) (v : α) :
    (l.set i v).length = l.length := List.length_set l i v

theorem optIndexOf_spec (tgt : String) (l : List (Option String)) (j : Nat)
    (h : optIndexOf tgt l = some j) : l[j]? = some (some tgt) := by
  induction l generalizing j with
  | nil => simp [optIndexOf] at h
  | cons e rest ih =>
    by_cases he : e = some tgt
    · simp only [optIndexOf, if_pos he, Option.some.injEq] at h
      subst h
      simp [he]
    · simp only [optIndexOf, if_neg he] at h
      cases hh : optIndexOf tgt rest with
      | none => rw [hh] at h; simp at h
      | some m =>
        rw [hh] at h
        simp only [Option.map_some', Option.some.injEq] at h
        subst h
        simpa using ih m hh

theorem optIndexOf_none (tgt : String) (l : List (Option String))
    (h : optIndexOf tgt l = none) : ∀ j : Nat, l[j]? ≠ some (some tgt) := by
  induction l with
  | nil => intro j; simp
  | cons e rest ih =>
    by_cases he : e = some tgt
    · simp [optIndexOf, if_pos he] at h
    · simp only [optIndexOf, if_neg he] at h
      intro j
      cases j with
      | zero =>
        simp only [List.getElem?_cons_zero]
        intro hq
        exact he (by injection hq)
      | succ m =>
        have hrest : optIndexOf tgt rest = none := by
          cases hh : optIndexOf tgt rest with
          | none => rfl
          | some m2 => rw [hh] at h; simp at h
        simpa using ih hrest m


/-! Canonical rank names are pairwise distinct: the padded decimal is
recoverable by evaluating the digit list. -/

/-- Evaluate a digit list as a base-10 numeral. -/
def valOf (l : List Char) : Nat := l.foldl (fun a c => a * 10 + (c.toNat - 48)) 0

theorem valOf_append_digit (l : List Char) (c : Char) :
    valOf (l ++ [c]) = valOf l * 10 + (c.toNat - 48) := by
  simp [valOf, List.foldl_append]

theorem valOf_replicate_zero_append (m : Nat) (l : List Char) :
    valOf (List.replicate m '0' ++ l) = valOf l := by
  induction m with
  | zero => simp
  | succ n ih =>
    simp only [List.replicate_succ, List.cons_append]
    show (List.replicate n '0' ++ l).foldl (fun a c => a * 10 + (c.toNat - 48))
      (0 * 10 + ('0'.toNat - 48)) = valOf l
    have hz : (0 * 10 + ('0'.toNat - 48)) = 0 := by decide
    rw [hz]
    exact ih

theorem digitCharOf_toNat (d : Nat) (h : d < 10) : (digitCharOf d).toNat = 48 + d := by
  interval_cases d <;> decide

theorem valOf_natReprGo (fuel n : Nat) (h : n < fuel) : valOf (natReprGo fuel n) = n := by
  induction fuel generalizing n with
  | zero => exact absurd h (Nat.not_lt_zero n)
  | succ fuel ih =>
    cases n with
    | zero => simp [natReprGo, valOf]
    | succ m =>
      have hd : (m + 1) / 10 < m + 1 := Nat.div_lt_self (Nat.succ_pos m) (by omega)
      have hlt : (m + 1) / 10 < fuel := by omega
      have hm : (m + 1) % 10 < 10 := Nat.mod_lt _ (by omega)
      show valOf (natReprGo fuel ((m + 1) / 10) ++ [digitCharOf ((m + 1) % 10)]) = m + 1
      rw [valOf_append_digit, ih _ hlt, digitCharOf_toNat _ hm]
      have := Nat.div_add_mod (m + 1) 10
      omega

theorem valOf_pad4_data (n : Nat) : valOf (pad4 n).data = n := by
  show valOf (padZeros 4 (natRepr n)) = n
  unfold padZeros
  rw [valOf_replicate_zero_append]
  unfold natRepr
  by_cases h : n = 0
  · subst h
    simp only [if_pos rfl]
    decide
  · rw [if_neg h]
    exact valOf_natReprGo (n + 1) n (Nat.lt_succ_self n)

theorem canonicalName_inj (base : String) (k k2 : Nat)
    (h : canonicalName base k = canonicalName base k2) : k = k2 := by
  have hd := congrArg String.data h
  simp only [canonicalName, String.data_append] at hd
  have hp : (pad4 k).data = (pad4 k2).data := by
    have h1 := List.append_cancel_right hd
    exact List.append_cancel_left h1
  have := congrArg valOf hp
  rwa [valOf_pad4_data, valOf_pad4_data] at this

theorem ends_pdb_ne_ends_temp (x y : String) : x ++ ".pdb" ≠ y ++ ".temp" := by
  intro h
  have hd := congrArg String.data h
  simp only [String.data_append] at hd
  have h1 : (x.data ++ ['.', 'p', 'd', 'b']).getLast? = some 'b' := by
    rw [show x.data ++ ['.', 'p', 'd', 'b'] = (x.data ++ ['.', 'p', 'd']) ++ ['b'] by simp]
    exact List.getLast?_concat _
  have h2 : (y.data ++ ['.', 't', 'e', 'm', 'p']).getLast? = some 'p' := by
    rw [show y.data ++ ['.', 't', 'e', 'm', 'p'] = (y.data ++ ['.', 't', 'e', 'm']) ++ ['p'] by simp]
    exact List.getLast?_concat _
  rw [hd, h2] at h1
  exact absurd (Option.some.inj h1) (by decide)

theorem canonicalName_ne_temp (base : String) (k : Nat) (y : String) :
    canonicalName base k ≠ y ++ ".temp" :=
  ends_pdb_ne_ends_temp (base ++ "_" ++ pad4 k) y

/-! Pointwise specifications of the paired file operations. -/

theorem fsRename_lookup (fs : List (String × Nat)) (old nw : String) (v : Nat)
    (hne : old ≠ nw) (h : alookup fs old = some v) :
    ∃ fs2, fsRename fs old nw = some fs2 ∧
      alookup fs2 nw = some v ∧ alookup fs2 old = none ∧
      ∀ x, x ≠ old → x ≠ nw → alookup fs2 x = alookup fs x := by
  refine ⟨ainsert (aerase fs old) nw v, ?_, ?_, ?_, ?_⟩
  · simp only [fsRename, if_neg hne, h]
  · exact alookup_ainsert_self _ _ _
  · rw [alookup_ainsert_ne _ _ _ _ hne]
    exact alookup_aerase_self _ _
  · intro x hxo hxn
    rw [alookup_ainsert_ne _ _ _ _ hxn, alookup_aerase_ne _ _ _ hxo]

theorem fsSwap_lookup (fs : List (String × Nat)) (a b : String) (va vb : Nat)
    (hab : a ≠ b) (hbt : b ≠ a ++ ".temp")
    (ha : alookup fs a = some va) (hb : alookup fs b = some vb) :
    ∃ fs3, fsSwap fs a b = some fs3 ∧
      alookup fs3 a = some vb ∧ alookup fs3 b = some va ∧
      alookup fs3 (a ++ ".temp") = none ∧
      ∀ x, x ≠ a → x ≠ b → x ≠ a ++ ".temp" → alookup fs3 x = alookup fs x := by
  have hat : a ≠ a ++ ".temp" := ne_append_temp a
  obtain ⟨fs1, e1, l1n, l1o, l1e⟩ := fsRename_lookup fs a (a ++ ".temp") va hat ha
  have hb1 : alookup fs1 b = some vb := by
    rw [l1e b (Ne.symm hab) hbt]
    exact hb
  obtain ⟨fs2, e2, l2n, l2o, l2e⟩ := fsRename_lookup fs1 b a vb (Ne.symm hab) hb1
  have ht2 : alookup fs2 (a ++ ".temp") = some va := by
    rw [l2e _ (Ne.symm hbt) (Ne.symm hat)]
    exact l1n
  obtain ⟨fs3, e3, l3n, l3o, l3e⟩ := fsRename_lookup fs2 (a ++ ".temp") b va (Ne.symm hbt) ht2
  refine ⟨fs3, ?_, ?_, ?_, ?_, ?_⟩
  · simp only [fsSwap, if_neg hab, e1, e2, e3]
  · rw [l3e a hat hab]
    exact l2n
  · exact l3n
  · exact l3o
  · intro x hxa hxb hxt
    rw [l3e x hxt hxb, l2e x hxb hxa, l1e x hxa hxt]

/-- The sequence of elementary `os.rename` calls the loop issues (three per
swap through `old + '.temp'`, one per direct rename, none when a name is
already in place), computed from the bookkeeping list alone — the branch
taken never inspects the files.  Replaying it with `applyScript` reproduces
the run, so its prefixes give every intermediate file state of the run. -/
def reorderScript (base : String) : Nat → Nat → List (Option String) → List (String × String)
  | 0, _, _ => []
  | fuel + 1, i, l =>
    match l[i]? with
    | none => []
    | some none => []
    | some (some old) =>
      let l1 := l.set i none
      let tgt := canonicalName base (i + 1)
      if old = tgt then reorderScript base fuel (i + 1) l1
      else
        match optIndexOf tgt l1 with
        | some j =>
          (old, old ++ ".temp") :: (tgt, old) :: (old ++ ".temp", tgt) ::
            reorderScript base fuel (i + 1) (l1.set j (some old))
        | none => (old, tgt) :: reorderScript base fuel (i + 1) l1

/-- Replay a sequence of paired renames (`renameFiles` calls) on the files. -/
def applyScript : List (String × Nat) → List (String × String) → Option (List (String × Nat))
  | fs, [] => some fs
  | fs, (a, b) :: rest =>
    match fsRename fs a b with
    | none => none
    | some fs2 => applyScript fs2 rest

/-! The loop invariant of `__reorderDecoys`: positions below the current index
are cleared, pending entries are distinct original names whose files carry the
content originally stored under the name at their slot, ranks up to the current
index are placed under their canonical names, and the file set is exactly
pending names plus placed ranks. -/

theorem reorderFrom_inv (base : String) (names : List String) (fs0 : List (String × Nat))
    (htempf : ∀ x ∈ names, (x ++ ".temp") ∉ names) :
    ∀ (fuel i : Nat) (l : List (Option String)) (fs : List (String × Nat)),
      fuel + i = names.length →
      l.length = names.length →
      (∀ j : Nat, j < i → l[j]? = some none) →
      (∀ j : Nat, i ≤ j → j < names.length → l[j]? ≠ some none) →
      (∀ (j j2 : Nat) (x : String), l[j]? = some (some x) → l[j2]? = some (some x) → j = j2) →
      (∀ (j : Nat) (x : String), l[j]? = some (some x) → x ∈ names ∧ i ≤ j) →
      (∀ (j : Nat) (x : String), l[j]? = some (some x) →
        ∀ k : Nat, 1 ≤ k → k ≤ i → x ≠ canonicalName base k) →
      (∀ (j : Nat) (x nm : String), l[j]? = some (some x) → names[j]? = some nm →
        alookup fs x = alookup fs0 nm) →
      (∀ (k : Nat) (nm : String), 1 ≤ k → k ≤ i → names[k - 1]? = some nm →
        alookup fs (canonicalName base k) = alookup fs0 nm) →
      (∀ x : String, (alookup fs x).isSome = true ↔
        ((∃ j : Nat, l[j]? = some (some x)) ∨
          ∃ k : Nat, 1 ≤ k ∧ k ≤ i ∧ x = canonicalName base k)) →
      ∃ final, reorderFrom base fuel i l fs = some final ∧
        (∀ (k : Nat) (nm : String), 1 ≤ k → k ≤ names.length → names[k - 1]? = some nm →
          alookup final (canonicalName base k) = alookup fs0 nm) ∧
        (∀ x : String, (alookup final x).isSome = true ↔
          ∃ k : Nat, 1 ≤ k ∧ k ≤ names.length ∧ x = canonicalName base k) ∧
        applyScript fs (reorderScript base fuel i l) = reorderFrom base fuel i l fs ∧
        (∀ (pre post : List (String × String)), reorderScript base fuel i l = pre ++ post →
          ∀ fsMid, applyScript fs pre = some fsMid →
          ∀ x1 x2 : String,
            (alookup fsMid x1).isSome = true → x1 ∉ names →
            (∀ k : Nat, 1 ≤ k → k ≤ names.length → x1 ≠ canonicalName base k) →
            (alookup fsMid x2).isSome = true → x2 ∉ names →
            (∀ k : Nat, 1 ≤ k → k ≤ names.length → x2 ≠ canonicalName base k) →
            x1 = x2 ∧ ∃ y ∈ names, x1 = y ++ ".temp") := by
  intro fuel
  induction fuel with
  | zero =>
    intro i l fs hfi hlen hcl hnn huni hmem hntgt htr hpl hdom
    refine ⟨fs, rfl, ?_, ?_, rfl, ?_⟩
    · intro k nm h1 h2 h3
      exact hpl k nm h1 (by omega) h3
    · intro x
      rw [hdom x]
      constructor
      · rintro (⟨j, hj⟩ | ⟨k, hk1, hk2, hk3⟩)
        · have hjlt : j < l.length := get_some_lt _ _ _ hj
          rw [hcl j (by omega)] at hj
          simp at hj
        · exact ⟨k, hk1, by omega, hk3⟩
      · rintro ⟨k, hk1, hk2, hk3⟩
        exact Or.inr ⟨k, hk1, by omega, hk3⟩
    · intro pre post hp fsMid hmid
      have hp2 : ([] : List (String × String)) = pre ++ post := hp
      cases pre with
      | cons q p1 => simp at hp2
      | nil =>
        simp only [applyScript, Option.some.injEq] at hmid
        subst hmid
        intro x1 x2 hx1 hn1 hc1 _ _ _
        exfalso
        rcases (hdom x1).mp hx1 with ⟨j, hj⟩ | ⟨k, hk1, hk2, hk3⟩
        · exact hn1 (hmem j x1 hj).1
        · exact hc1 k hk1 (by omega) hk3
  | succ fuel ih =>
    intro i l fs hfi hlen hcl hnn huni hmem hntgt htr hpl hdom
    have hiN : i < names.length := by omega
    have hil : i < l.length := by omega
    obtain ⟨o, ho⟩ := get_of_lt l i hil
    cases o with
    | none => exact absurd ho (hnn i (Nat.le_refl i) hiN)
    | some old =>
      have hold_mem : old ∈ names := (hmem i old ho).1
      have hl1 : ∀ (p : Nat) (x : String), (l.set i none)[p]? = some (some x) →
          p ≠ i ∧ l[p]? = some (some x) := by
        intro p x hp
        by_cases hpi : p = i
        · subst hpi
          rw [get_set_self _ _ _ hil] at hp
          simp at hp
        · refine ⟨hpi, ?_⟩
          rw [get_set_ne _ _ _ _ (fun hq => hpi hq.symm)] at hp
          exact hp
      obtain ⟨vOld, hvOld⟩ : ∃ v, alookup fs old = some v :=
        Option.isSome_iff_exists.mp ((hdom old).mpr (Or.inl ⟨i, ho⟩))
      by_cases heq : old = canonicalName base (i + 1)
      · -- already in place: `continue`
        have hstep : reorderFrom base (fuel + 1) i l fs =
            reorderFrom base fuel (i + 1) (l.set i none) fs := by
          simp only [reorderFrom, ho]
          rw [if_pos heq]
        have hscr : reorderScript base (fuel + 1) i l =
            reorderScript base fuel (i + 1) (l.set i none) := by
          simp only [reorderScript, ho]
          rw [if_pos heq]
        obtain ⟨final, hrun, c1, c2, cA, cB⟩ := ih (i + 1) (l.set i none) fs
          (by omega)
          (by rw [set_length]; exact hlen)
          (by
            intro p hp
            by_cases hpi : p = i
            · subst hpi
              exact get_set_self _ _ _ hil
            · rw [get_set_ne _ _ _ _ (fun hq => hpi hq.symm)]
              exact hcl p (by omega))
          (by
            intro p hp1 hp2
            have hpi : p ≠ i := by omega
            rw [get_set_ne _ _ _ _ (fun hq => hpi hq.symm)]
            exact hnn p (by omega) hp2)
          (by
            intro p p2 x hp hp2
            exact huni p p2 x (hl1 p x hp).2 (hl1 p2 x hp2).2)
          (by
            intro p x hp
            obtain ⟨hpi, hpl2⟩ := hl1 p x hp
            have := hmem p x hpl2
            exact ⟨this.1, by omega⟩)
          (by
            intro p x hp k hk1 hk2
            obtain ⟨hpi, hpl2⟩ := hl1 p x hp
            by_cases hk : k = i + 1
            · subst hk
              intro hxeq
              have hxold : x = old := hxeq.trans heq.symm
              exact hpi (huni p i x hpl2 (by rw [hxold] at hp ⊢; exact ho))
            · exact hntgt p x hpl2 k hk1 (by omega))
          (by
            intro p x nm hp hnm
            exact htr p x nm (hl1 p x hp).2 hnm)
          (by
            intro k nm hk1 hk2 hnm
            by_cases hk : k = i + 1
            · subst hk
              simp only [Nat.add_sub_cancel] at hnm
              rw [← heq]
              exact htr i old nm ho hnm
            · exact hpl k nm hk1 (by omega) hnm)
          (by
            intro x
            rw [hdom x]
            constructor
            · rintro (⟨p, hp⟩ | ⟨k, hk1, hk2, hk3⟩)
              · by_cases hpi : p = i
                · rw [hpi, ho] at hp
                  have hxold : x = old := (Option.some.inj (Option.some.inj hp)).symm
                  exact Or.inr ⟨i + 1, by omega, by omega, hxold.trans heq⟩
                · refine Or.inl ⟨p, ?_⟩
                  rw [get_set_ne _ _ _ _ (fun hq => hpi hq.symm)]
                  exact hp
              · exact Or.inr ⟨k, hk1, by omega, hk3⟩
            · rintro (⟨p, hp⟩ | ⟨k, hk1, hk2, hk3⟩)
              · exact Or.inl ⟨p, (hl1 p x hp).2⟩
              · by_cases hk : k = i + 1
                · subst hk
                  have hxold : x = old := hk3.trans heq.symm
                  exact Or.inl ⟨i, by rw [hxold]; exact ho⟩
                · exact Or.inr ⟨k, hk1, by omega, hk3⟩)
        refine ⟨final, by rw [hstep]; exact hrun, c1, c2, ?_, ?_⟩
        · rw [hscr, hstep]
          exact cA
        · intro pre post hp fsMid hmid
          rw [hscr] at hp
          exact cB pre post hp fsMid hmid
      · -- needs a move
        cases hfind : optIndexOf (canonicalName base (i + 1)) (l.set i none) with
        | some j =>
          -- the canonical name is still pending at slot `j`: swap
          have hj1 : (l.set i none)[j]? = some (some (canonicalName base (i + 1))) :=
            optIndexOf_spec _ _ _ hfind
          obtain ⟨hji, hjl⟩ := hl1 j (canonicalName base (i + 1)) hj1
          have hjgt : i < j := by
            rcases Nat.lt_or_ge j i with hlt | hge
            · rw [hcl j hlt] at hjl
              simp at hjl
            · omega
          have hjN : j < names.length := by
            have := get_some_lt _ _ _ hjl
            omega
          obtain ⟨vTgt, hvTgt⟩ : ∃ v, alookup fs (canonicalName base (i + 1)) = some v :=
            Option.isSome_iff_exists.mp ((hdom _).mpr (Or.inl ⟨j, hjl⟩))
          have hbt : canonicalName base (i + 1) ≠ old ++ ".temp" :=
            canonicalName_ne_temp base (i + 1) old
          have hat : old ≠ old ++ ".temp" := ne_append_temp old
          obtain ⟨fs1x, e1, l1n, l1o, l1e⟩ :=
            fsRename_lookup fs old (old ++ ".temp") vOld hat hvOld
          have hb1 : alookup fs1x (canonicalName base (i + 1)) = some vTgt := by
            rw [l1e _ (Ne.symm heq) hbt]
            exact hvTgt
          obtain ⟨fs2x, e2, l2n, l2o, l2e⟩ :=
            fsRename_lookup fs1x (canonicalName base (i + 1)) old vTgt (Ne.symm heq) hb1
          have ht2 : alookup fs2x (old ++ ".temp") = some vOld := by
            rw [l2e _ (Ne.symm hbt) (Ne.symm hat)]
            exact l1n
          obtain ⟨fs3, e3, sTgt, sTemp, l3e⟩ :=
            fsRename_lookup fs2x (old ++ ".temp") (canonicalName base (i + 1)) vOld
              (Ne.symm hbt) ht2
          have sOld : alookup fs3 old = some vTgt := by
            rw [l3e old hat heq]
            exact l2n
          have sElse : ∀ x, x ≠ old → x ≠ canonicalName base (i + 1) → x ≠ old ++ ".temp" →
              alookup fs3 x = alookup fs x := by
            intro x hxo hxg hxt
            rw [l3e x hxt hxg, l2e x hxg hxo, l1e x hxo hxt]
          have heswap : fsSwap fs old (canonicalName base (i + 1)) = some fs3 := by
            simp only [fsSwap, if_neg heq, e1, e2, e3]
          have hjl1 : j < (l.set i none).length := by rw [set_length]; omega
          have hj2self : ((l.set i none).set j (some old))[j]? = some (some old) :=
            get_set_self _ _ _ hjl1
          have hl2 : ∀ (p : Nat) (x : String),
              ((l.set i none).set j (some old))[p]? = some (some x) →
              (p = j ∧ x = old) ∨ (p ≠ i ∧ p ≠ j ∧ l[p]? = some (some x)) := by
            intro p x hp
            by_cases hpj : p = j
            · subst hpj
              rw [get_set_self _ _ _ hjl1] at hp
              exact Or.inl ⟨rfl, ((Option.some.inj (Option.some.inj hp))).symm⟩
            · rw [get_set_ne _ _ _ _ (fun hq => hpj hq.symm)] at hp
              obtain ⟨hpi, hpl2⟩ := hl1 p x hp
              exact Or.inr ⟨hpi, hpj, hpl2⟩
          have hstep : reorderFrom base (fuel + 1) i l fs =
              reorderFrom base fuel (i + 1) ((l.set i none).set j (some old)) fs3 := by
            simp only [reorderFrom, ho]
            rw [if_neg heq]
            simp only [hfind, heswap]
          have hscr : reorderScript base (fuel + 1) i l =
              (old, old ++ ".temp") :: (canonicalName base (i + 1), old) ::
              (old ++ ".temp", canonicalName base (i + 1)) ::
              reorderScript base fuel (i + 1) ((l.set i none).set j (some old)) := by
            simp only [reorderScript, ho]
            rw [if_neg heq]
            simp only [hfind]
          obtain ⟨final, hrun, c1, c2, cA, cB⟩ := ih (i + 1) ((l.set i none).set j (some old)) fs3
            (by omega)
            (by rw [set_length, set_length]; exact hlen)
            (by
              intro p hp
              have hpj : p ≠ j := by omega
              rw [get_set_ne _ _ _ _ (fun hq => hpj hq.symm)]
              by_cases hpi : p = i
              · subst hpi
                exact get_set_self _ _ _ hil
              · rw [get_set_ne _ _ _ _ (fun hq => hpi hq.symm)]
                exact hcl p (by omega))
            (by
              intro p hp1 hp2
              by_cases hpj : p = j
              · subst hpj
                rw [hj2self]
                simp
              · rw [get_set_ne _ _ _ _ (fun hq => hpj hq.symm)]
                have hpi : p ≠ i := by omega
                rw [get_set_ne _ _ _ _ (fun hq => hpi hq.symm)]
                exact hnn p (by omega) hp2)
            (by
              intro p p2 x hp hp2
              rcases hl2 p x hp with ⟨hpj, hxo⟩ | ⟨hpi, hpj, hpll⟩
              · rcases hl2 p2 x hp2 with ⟨hpj2, _⟩ | ⟨hpi2, hpj2, hpll2⟩
                · rw [hpj, hpj2]
                · exact absurd (huni p2 i x hpll2 (by rw [hxo]; exact ho)) hpi2
              · rcases hl2 p2 x hp2 with ⟨hpj2, hxo2⟩ | ⟨hpi2, hpj2, hpll2⟩
                · exact absurd (huni p i x hpll (by rw [hxo2]; exact ho)) hpi
                · exact huni p p2 x hpll hpll2)
            (by
              intro p x hp
              rcases hl2 p x hp with ⟨hpj, hxo⟩ | ⟨hpi, hpj, hpll⟩
              · subst hxo
                exact ⟨hold_mem, by omega⟩
              · have := hmem p x hpll
                exact ⟨this.1, by omega⟩)
            (by
              intro p x hp k hk1 hk2
              rcases hl2 p x hp with ⟨hpj, hxo⟩ | ⟨hpi, hpj, hpll⟩
              · rw [hxo]
                by_cases hk : k = i + 1
                · subst hk
                  exact heq
                · exact hntgt i old ho k hk1 (by omega)
              · by_cases hk : k = i + 1
                · subst hk
                  intro hxeq
                  exact hpj (huni p j x hpll (by rw [hxeq]; exact hjl))
                · exact hntgt p x hpll k hk1 (by omega))
            (by
              intro p x nm hp hnm
              rcases hl2 p x hp with ⟨hpj, hxo⟩ | ⟨hpi, hpj, hpll⟩
              · rw [hpj] at hnm
                rw [hxo, sOld, ← htr j (canonicalName base (i + 1)) nm hjl hnm, hvTgt]
              · have hxo : x ≠ old := fun hq => hpi (huni p i x hpll (by rw [hq]; exact ho))
                have hxg : x ≠ canonicalName base (i + 1) :=
                  fun hq => hpj (huni p j x hpll (by rw [hq]; exact hjl))
                have hxt : x ≠ old ++ ".temp" := by
                  intro hq
                  have := (hmem p x hpll).1
                  rw [hq] at this
                  exact htempf old hold_mem this
                rw [sElse x hxo hxg hxt]
                exact htr p x nm hpll hnm)
            (by
              intro k nm hk1 hk2 hnm
              by_cases hk : k = i + 1
              · subst hk
                simp only [Nat.add_sub_cancel] at hnm
                rw [sTgt, ← htr i old nm ho hnm, hvOld]
              · have hko : canonicalName base k ≠ old :=
                  fun hq => hntgt i old ho k hk1 (by omega) hq.symm
                have hkg : canonicalName base k ≠ canonicalName base (i + 1) :=
                  fun hq => hk (canonicalName_inj base k (i + 1) hq)
                have hkt : canonicalName base k ≠ old ++ ".temp" :=
                  canonicalName_ne_temp base k old
                rw [sElse _ hko hkg hkt]
                exact hpl k nm hk1 (by omega) hnm)
            (by
              intro x
              by_cases hxt : x = old ++ ".temp"
              · subst hxt
                rw [sTemp]
                simp only [Option.isSome_none, Bool.false_eq_true, false_iff]
                rintro (⟨p, hp⟩ | ⟨k, hk1, hk2, hk3⟩)
                · rcases hl2 p _ hp with ⟨_, hxo⟩ | ⟨_, _, hpll⟩
                  · exact ne_append_temp old hxo.symm
                  · exact htempf old hold_mem (hmem p _ hpll).1
                · exact canonicalName_ne_temp base k old hk3.symm
              · by_cases hxo : x = old
                · subst hxo
                  rw [sOld]
                  simp only [Option.isSome_some, true_iff]
                  exact Or.inl ⟨j, hj2self⟩
                · by_cases hxg : x = canonicalName base (i + 1)
                  · subst hxg
                    rw [sTgt]
                    simp only [Option.isSome_some, true_iff]
                    exact Or.inr ⟨i + 1, by omega, by omega, rfl⟩
                  · rw [sElse x hxo hxg hxt, hdom x]
                    constructor
                    · rintro (⟨p, hp⟩ | ⟨k, hk1, hk2, hk3⟩)
                      · have hpi : p ≠ i := by
                          intro hq
                          subst hq
                          rw [ho] at hp
                          exact hxo (Option.some.inj (Option.some.inj hp)).symm
                        have hpj : p ≠ j := by
                          intro hq
                          subst hq
                          rw [hjl] at hp
                          exact hxg (Option.some.inj (Option.some.inj hp)).symm
                        refine Or.inl ⟨p, ?_⟩
                        rw [get_set_ne _ _ _ _ (fun hq => hpj hq.symm),
                          get_set_ne _ _ _ _ (fun hq => hpi hq.symm)]
                        exact hp
                      · exact Or.inr ⟨k, hk1, by omega, hk3⟩
                    · rintro (⟨p, hp⟩ | ⟨k, hk1, hk2, hk3⟩)
                      · rcases hl2 p x hp with ⟨_, hxold⟩ | ⟨_, _, hpll⟩
                        · exact absurd hxold hxo
                        · exact Or.inl ⟨p, hpll⟩
                      · by_cases hk : k = i + 1
                        · subst hk
                          exact absurd hk3 hxg
                        · exact Or.inr ⟨k, hk1, by omega, hk3⟩)
          refine ⟨final, by rw [hstep]; exact hrun, c1, c2, ?_, ?_⟩
          · rw [hscr, hstep]
            simp only [applyScript, e1, e2, e3]
            exact cA
          · intro pre post hp fsMid hmid
            rw [hscr] at hp
            have hone1 : ∀ x : String, (alookup fs1x x).isSome = true → x ∉ names →
                (∀ k : Nat, 1 ≤ k → k ≤ names.length → x ≠ canonicalName base k) →
                x = old ++ ".temp" := by
              intro x hx hxn hxc
              by_cases hxt : x = old ++ ".temp"
              · exact hxt
              · have hxo : x ≠ old := fun hq => hxn (by rw [hq]; exact hold_mem)
                rw [l1e x hxo hxt] at hx
                exfalso
                rcases (hdom x).mp hx with ⟨jj, hj2⟩ | ⟨k, hk1, hk2, hk3⟩
                · exact hxn (hmem jj x hj2).1
                · exact hxc k hk1 (by omega) hk3
            have hone2 : ∀ x : String, (alookup fs2x x).isSome = true → x ∉ names →
                (∀ k : Nat, 1 ≤ k → k ≤ names.length → x ≠ canonicalName base k) →
                x = old ++ ".temp" := by
              intro x hx hxn hxc
              by_cases hxt : x = old ++ ".temp"
              · exact hxt
              · have hxo : x ≠ old := fun hq => hxn (by rw [hq]; exact hold_mem)
                have hxg : x ≠ canonicalName base (i + 1) := hxc (i + 1) (by omega) (by omega)
                rw [l2e x hxg hxo, l1e x hxo hxt] at hx
                exfalso
                rcases (hdom x).mp hx with ⟨jj, hj2⟩ | ⟨k, hk1, hk2, hk3⟩
                · exact hxn (hmem jj x hj2).1
                · exact hxc k hk1 (by omega) hk3
            cases pre with
            | nil =>
              simp only [applyScript, Option.some.injEq] at hmid
              subst hmid
              intro x1 x2 hx1 hn1 hc1 _ _ _
              exfalso
              rcases (hdom x1).mp hx1 with ⟨jj, hj2⟩ | ⟨k, hk1, hk2, hk3⟩
              · exact hn1 (hmem jj x1 hj2).1
              · exact hc1 k hk1 (by omega) hk3
            | cons q p1 =>
              injection hp with hq hp1eq
              subst hq
              cases p1 with
              | nil =>
                simp only [applyScript, e1, Option.some.injEq] at hmid
                subst hmid
                intro x1 x2 hx1 hn1 hc1 hx2 hn2 hc2
                have h1t := hone1 x1 hx1 hn1 hc1
                have h2t := hone1 x2 hx2 hn2 hc2
                exact ⟨h1t.trans h2t.symm, old, hold_mem, h1t⟩
              | cons q2 p2 =>
                injection hp1eq with hq2 hp2eq
                subst hq2
                cases p2 with
                | nil =>
                  simp only [applyScript, e1, e2, Option.some.injEq] at hmid
                  subst hmid
                  intro x1 x2 hx1 hn1 hc1 hx2 hn2 hc2
                  have h1t := hone2 x1 hx1 hn1 hc1
                  have h2t := hone2 x2 hx2 hn2 hc2
                  exact ⟨h1t.trans h2t.symm, old, hold_mem, h1t⟩
                | cons q3 p3 =>
                  injection hp2eq with hq3 hp3eq
                  subst hq3
                  simp only [applyScript, e1, e2, e3] at hmid
                  exact cB p3 post hp3eq fsMid hmid
        | none =>
          -- the canonical name is not pending: direct rename
          have hnotlive : ∀ p : Nat,
              (l.set i none)[p]? ≠ some (some (canonicalName base (i + 1))) :=
            optIndexOf_none _ _ hfind
          obtain ⟨fs2, eren, rN, rO, rE⟩ := fsRename_lookup fs old (canonicalName base (i + 1))
            vOld heq hvOld
          have hstep : reorderFrom base (fuel + 1) i l fs =
              reorderFrom base fuel (i + 1) (l.set i none) fs2 := by
            simp only [reorderFrom, ho]
            rw [if_neg heq]
            simp only [hfind, eren]
          have hscr : reorderScript base (fuel + 1) i l =
              (old, canonicalName base (i + 1)) ::
              reorderScript base fuel (i + 1) (l.set i none) := by
            simp only [reorderScript, ho]
            rw [if_neg heq]
            simp only [hfind]
          obtain ⟨final, hrun, c1, c2, cA, cB⟩ := ih (i + 1) (l.set i none) fs2
            (by omega)
            (by rw [set_length]; exact hlen)
            (by
              intro p hp
              by_cases hpi : p = i
              · subst hpi
                exact get_set_self _ _ _ hil
              · rw [get_set_ne _ _ _ _ (fun hq => hpi hq.symm)]
                exact hcl p (by omega))
            (by
              intro p hp1 hp2
              have hpi : p ≠ i := by omega
              rw [get_set_ne _ _ _ _ (fun hq => hpi hq.symm)]
              exact hnn p (by omega) hp2)
            (by
              intro p p2 x hp hp2
              exact huni p p2 x (hl1 p x hp).2 (hl1 p2 x hp2).2)
            (by
              intro p x hp
              obtain ⟨hpi, hpl2⟩ := hl1 p x hp
              have := hmem p x hpl2
              exact ⟨this.1, by omega⟩)
            (by
              intro p x hp k hk1 hk2
              by_cases hk : k = i + 1
              · subst hk
                intro hxeq
                exact hnotlive p (by rw [← hxeq]; exact hp)
              · exact hntgt p x (hl1 p x hp).2 k hk1 (by omega))
            (by
              intro p x nm hp hnm
              obtain ⟨hpi, hpll⟩ := hl1 p x hp
              have hxo : x ≠ old := fun hq => hpi (huni p i x hpll (by rw [hq]; exact ho))
              have hxg : x ≠ canonicalName base (i + 1) := fun hq =>
                hnotlive p (by rw [← hq]; exact hp)
              rw [rE x hxo hxg]
              exact htr p x nm hpll hnm)
            (by
              intro k nm hk1 hk2 hnm
              by_cases hk : k = i + 1
              · subst hk
                simp only [Nat.add_sub_cancel] at hnm
                rw [rN, ← htr i old nm ho hnm, hvOld]
              · have hko : canonicalName base k ≠ old :=
                  fun hq => hntgt i old ho k hk1 (by omega) hq.symm
                have hkg : canonicalName base k ≠ canonicalName base (i + 1) :=
                  fun hq => hk (canonicalName_inj base k (i + 1) hq)
                rw [rE _ hko hkg]
                exact hpl k nm hk1 (by omega) hnm)
            (by
              intro x
              by_cases hxo : x = old
              · rw [hxo, rO]
                simp only [Option.isSome_none, Bool.false_eq_true, false_iff]
                rintro (⟨p, hp⟩ | ⟨k, hk1, hk2, hk3⟩)
                · obtain ⟨hpi, hpll⟩ := hl1 p old hp
                  exact hpi (huni p i old hpll ho)
                · by_cases hk : k = i + 1
                  · subst hk
                    exact heq hk3
                  · exact hntgt i old ho k hk1 (by omega) hk3
              · by_cases hxg : x = canonicalName base (i + 1)
                · subst hxg
                  rw [rN]
                  simp only [Option.isSome_some, true_iff]
                  exact Or.inr ⟨i + 1, by omega, by omega, rfl⟩
                · rw [rE x hxo hxg, hdom x]
                  constructor
                  · rintro (⟨p, hp⟩ | ⟨k, hk1, hk2, hk3⟩)
                    · have hpi : p ≠ i := by
                        intro hq
                        subst hq
                        rw [ho] at hp
                        exact hxo (Option.some.inj (Option.some.inj hp)).symm
                      refine Or.inl ⟨p, ?_⟩
                      rw [get_set_ne _ _ _ _ (fun hq => hpi hq.symm)]
                      exact hp
                    · exact Or.inr ⟨k, hk1, by omega, hk3⟩
                  · rintro (⟨p, hp⟩ | ⟨k, hk1, hk2, hk3⟩)
                    · exact Or.inl ⟨p, (hl1 p x hp).2⟩
                    · by_cases hk : k = i + 1
                      · subst hk
                        exact absurd hk3 hxg
                      · exact Or.inr ⟨k, hk1, by omega, hk3⟩)
          refine ⟨final, by rw [hstep]; exact hrun, c1, c2, ?_, ?_⟩
          · rw [hscr, hstep]
            simp only [applyScript, eren]
            exact cA
          · intro pre post hp fsMid hmid
            rw [hscr] at hp
            cases pre with
            | nil =>
              simp only [applyScript, Option.some.injEq] at hmid
              subst hmid
              intro x1 x2 hx1 hn1 hc1 _ _ _
              exfalso
              rcases (hdom x1).mp hx1 with ⟨jj, hj2⟩ | ⟨k, hk1, hk2, hk3⟩
              · exact hn1 (hmem jj x1 hj2).1
              · exact hc1 k hk1 (by omega) hk3
            | cons q p1 =>
              injection hp with hq hp1eq
              subst hq
              simp only [applyScript, eren] at hmid
              exact cB p1 post hp1eq fsMid hmid

theorem nodup_get_inj {α : Type} :
    ∀ (l : List α), l.Nodup → ∀ (j j2 : Nat) (x : α),
      l[j]? = some x → l[j2]? = some x → j = j2 := by
  intro l
  induction l with
  | nil =>
    intro _ j j2 x h1
    simp at h1
  | cons a as ih =>
    intro hnd j j2 x h1 h2
    rcases List.nodup_cons.mp hnd with ⟨hna, hnas⟩
    cases j with
    | zero =>
      cases j2 with
      | zero => rfl
      | succ m =>
        simp only [List.getElem?_cons_zero, Option.some.injEq] at h1
        have hm : as[m]? = some x := by simpa using h2
        exact absurd (by rw [h1]; exact (mem_iff_exists_get as x).mpr ⟨m, hm⟩) hna
    | succ n =>
      cases j2 with
      | zero =>
        simp only [List.getElem?_cons_zero, Option.some.injEq] at h2
        have hn : as[n]? = some x := by simpa using h1
        exact absurd (by rw [h2]; exact (mem_iff_exists_get as x).mpr ⟨n, hn⟩) hna
      | succ m =>
        have := ih hnas n m x (by simpa using h1) (by simpa using h2)
        omega

theorem map_some_get_inv (names : List String) (j : Nat) (x : String)
    (h : (names.map some)[j]? = some (some x)) : names[j]? = some x := by
  rw [get_map_some] at h
  cases hh : names[j]? with
  | none =>
    rw [hh] at h
    simp at h
  | some nm =>
    rw [hh] at h
    have := Option.some.inj (Option.some.inj h)
    rw [this]

/-- C2 (amended): when the artifact files on disk are exactly the listed
names, the names are pairwise distinct, and no listed name is another listed
name with `'.temp'` appended (names produced by the score-file parser always
end in `'.pdb'`, so the call sites satisfy this), `__reorderDecoys` succeeds
with no exception: the final file set is exactly the canonical rank names
`'%s_%.4d.pdb' % (basename, k)` for `k = 1..N`, the file placed at rank
`j + 1` carries the content originally stored under `newOrder[j]` (a
bijection from old names onto canonical names), and no `'.temp'` intermediate
name remains.  Moreover the run is the replay of its rename script
(`applyScript`/`reorderScript`), and after every prefix of that script —
i.e. at every intermediate moment of the run — at most one name outside the
original list and the canonical rank names exists, and it is the `'.temp'`
temporary of an original name: the loop uses at most one temporary file at
any time.  Without the `'.temp'`-freshness hypothesis the routine loses a
file and raises. -/
theorem reorderDecoys_lossfree (names : List String) (basename : Option String)
    (base : String) (fs0 : List (String × Nat))
    (hb : reorderBase names basename = some base)
    (hnd : names.Nodup)
    (hkeys : fs0.map Prod.fst = names)
    (htempf : ∀ x ∈ names, (x ++ ".temp") ∉ names) :
    ∃ final, reorderDecoys names basename fs0 = some final ∧
      (∀ (j : Nat) (nm : String), names[j]? = some nm →
        alookup final (canonicalName base (j + 1)) = alookup fs0 nm) ∧
      (∀ x : String, (alookup final x).isSome = true ↔
        ∃ k : Nat, 1 ≤ k ∧ k ≤ names.length ∧ x = canonicalName base k) ∧
      (∀ x y : String, x = y ++ ".temp" → alookup final x = none) ∧
      applyScript fs0 (reorderScript base names.length 0 (names.map some)) = some final ∧
      (∀ (pre post : List (String × String)),
        reorderScript base names.length 0 (names.map some) = pre ++ post →
        ∀ fsMid, applyScript fs0 pre = some fsMid →
        ∀ x1 x2 : String,
          (alookup fsMid x1).isSome = true → x1 ∉ names →
          (∀ k : Nat, 1 ≤ k → k ≤ names.length → x1 ≠ canonicalName base k) →
          (alookup fsMid x2).isSome = true → x2 ∉ names →
          (∀ k : Nat, 1 ≤ k → k ≤ names.length → x2 ≠ canonicalName base k) →
          x1 = x2 ∧ ∃ y ∈ names, x1 = y ++ ".temp") := by
  obtain ⟨final, hrun, c1, c2, cA, cB⟩ := reorderFrom_inv base names fs0 htempf names.length 0
    (names.map some) fs0
    (by omega)
    (by simp)
    (by
      intro j hj
      exact absurd hj (Nat.not_lt_zero j))
    (by
      intro j hj1 hj2 hcontra
      obtain ⟨nm, hnm⟩ := get_of_lt names j hj2
      rw [get_map_some, hnm] at hcontra
      simp at hcontra)
    (by
      intro j j2 x h1 h2
      exact nodup_get_inj names hnd j j2 x (map_some_get_inv _ _ _ h1)
        (map_some_get_inv _ _ _ h2))
    (by
      intro j x h
      exact ⟨(mem_iff_exists_get names x).mpr ⟨j, map_some_get_inv _ _ _ h⟩, Nat.zero_le j⟩)
    (by
      intro j x h k hk1 hk2
      exact absurd hk2 (by omega))
    (by
      intro j x nm h hnm
      have hx := map_some_get_inv _ _ _ h
      rw [hnm] at hx
      rw [← Option.some.inj hx])
    (by
      intro k nm hk1 hk2
      exact absurd hk2 (by omega))
    (by
      intro x
      rw [alookup_isSome_iff_mem, hkeys]
      constructor
      · intro hx
        obtain ⟨j, hj⟩ := (mem_iff_exists_get names x).mp hx
        exact Or.inl ⟨j, by rw [get_map_some, hj]; rfl⟩
      · rintro (⟨j, hj⟩ | ⟨k, hk1, hk2, _⟩)
        · exact (mem_iff_exists_get names x).mpr ⟨j, map_some_get_inv _ _ _ hj⟩
        · omega)
  refine ⟨final, ?_, ?_, c2, ?_, by rw [cA]; exact hrun, cB⟩
  · simp only [reorderDecoys, hb]
    exact hrun
  · intro j nm hnm
    have hj : j < names.length := get_some_lt _ _ _ hnm
    exact c1 (j + 1) nm (by omega) (by omega) (by simpa using hnm)
  · intro x y hxy
    by_contra hne2
    have hs : (alookup final x).isSome = true := Option.isSome_iff_ne_none.mpr hne2
    obtain ⟨k, -, -, hk3⟩ := (c2 x).mp hs
    exact canonicalName_ne_temp base k y (hk3.symm.trans hxy)

/-- Witness for C2's amended theorem on a concrete two-artifact directory:
the run succeeds, ranks map to the original contents, exactly the canonical
names remain, no temp file survives, the run replays its rename script, and
every prefix of that script leaves at most one temporary name. -/
theorem reorderDecoys_lossfree_witness :
    (["out_2.pdb", "out_1.pdb"] : List String).Nodup ∧
    ∃ final, reorderDecoys ["out_2.pdb", "out_1.pdb"] none
        [("out_2.pdb", 10), ("out_1.pdb", 20)] = some final ∧
      (∀ (j : Nat) (nm : String), (["out_2.pdb", "out_1.pdb"] : List String)[j]? = some nm →
        alookup final (canonicalName "out" (j + 1)) =
          alookup [("out_2.pdb", 10), ("out_1.pdb", 20)] nm) ∧
      (∀ x : String, (alookup final x).isSome = true ↔
        ∃ k : Nat, 1 ≤ k ∧ k ≤ 2 ∧ x = canonicalName "out" k) ∧
      (∀ x y : String, x = y ++ ".temp" → alookup final x = none) ∧
      applyScript [("out_2.pdb", 10), ("out_1.pdb", 20)]
        (reorderScript "out" 2 0 ((["out_2.pdb", "out_1.pdb"] : List String).map some)) =
        some final ∧
      (∀ (pre post : List (String × String)),
        reorderScript "out" 2 0 ((["out_2.pdb", "out_1.pdb"] : List String).map some) =
          pre ++ post →
        ∀ fsMid, applyScript [("out_2.pdb", 10), ("out_1.pdb", 20)] pre = some fsMid →
        ∀ x1 x2 : String,
          (alookup fsMid x1).isSome = true →
          x1 ∉ (["out_2.pdb", "out_1.pdb"] : List String) →
          (∀ k : Nat, 1 ≤ k → k ≤ 2 → x1 ≠ canonicalName "out" k) →
          (alookup fsMid x2).isSome = true →
          x2 ∉ (["out_2.pdb", "out_1.pdb"] : List String) →
          (∀ k : Nat, 1 ≤ k → k ≤ 2 → x2 ≠ canonicalName "out" k) →
          x1 = x2 ∧ ∃ y ∈ (["out_2.pdb", "out_1.pdb"] : List String), x1 = y ++ ".temp") :=
  ⟨by decide, reorderDecoys_lossfree ["out_2.pdb", "out_1.pdb"] none "out"
    [("out_2.pdb", 10), ("out_1.pdb", 20)] (by decide) (by decide) (by decide) (by decide)⟩

/-- Counterexample to C2 as frozen: three distinct names, all existing as
files.  The first swap goes through the temporary name `'c_0003.pdb.temp'`,
which is itself one of the artifacts: `os.rename` silently overwrites it, so
its content (token `3`) is lost, and the third iteration then raises when it
tries to rename the vanished file (`KeyError`/`FileNotFoundError`), so the
renumbering is neither exception-free nor loss-free for arbitrary distinct
existing names. -/
theorem reorderDecoys_temp_collision_cex :
    reorderDecoys ["c_0003.pdb", "c_0001.pdb", "c_0003.pdb.temp"] none
      [("c_0003.pdb", 1), ("c_0001.pdb", 2), ("c_0003.pdb.temp", 3)] = none ∧
    (["c_0003.pdb", "c_0001.pdb", "c_0003.pdb.temp"] : List String).Nodup ∧
    fsSwap [("c_0003.pdb", 1), ("c_0001.pdb", 2), ("c_0003.pdb.temp", 3)]
        "c_0003.pdb" "c_0001.pdb" =
      some [("c_0003.pdb", 2), ("c_0001.pdb", 1)] := by
  refine ⟨?_, by decide, ?_⟩
  · decide
  · decide

end Molecbio
